import Mathlib

/-!
Verification development for the k8sedge-sre-agent backend
(`health-ui/backend/app`): the diagnostic session orchestrator.

The Python sources are embedded shallowly:
* `models.py` — `HealthIssue` (with `canonical_key` / `compute_issue_id` over a
  SHA-1 digest, embedded below from the FIPS 180 description since `hashlib`
  is a library), `AgentState` and its pydantic validation;
* `api/workflow_api.py` — the incremental JSON-object extraction loop of
  `_flush_diag_stream` (built on `json.JSONDecoder.raw_decode`, embedded as a
  recursive-descent parser over `List Char` mirroring CPython's scanner),
  `_get_clean_history`, `_ask_intervention`, and the per-turn control loop of
  `workflow_ws`;
* `skills/k8s_diag.py` — `get_pod_diagnostics` with the Kubernetes client
  modelled as an oracle of `Except`-valued calls.

Python strings are modelled as `List Char` (code points); machine-level
concerns (asyncio scheduling, websocket transport failures during sends,
logging) are elided as external.
-/

namespace SreAgent

/-! ### Characters and small helpers -/

/-- JSON whitespace, as in CPython's `json` module (`' \t\n\r'`). -/
def isWsChar (c : Char) : Bool :=
  c = ' ' || c = '\t' || c = '\n' || c = '\r'

def isDigitChar (c : Char) : Bool :=
  '0' ≤ c && c ≤ '9'

/-- Drop leading JSON whitespace (the `_w(s, end).end()` idiom of the scanner). -/
def skipWs : List Char → List Char
  | [] => []
  | c :: r => if isWsChar c then skipWs r else c :: r

/-- Maximal run of decimal digits (the `\d*` pieces of `NUMBER_RE`). -/
def takeDigits : List Char → List Char × List Char
  | [] => ([], [])
  | c :: r =>
    if isDigitChar c then
      let (ds, rest) := takeDigits r
      (c :: ds, rest)
    else ([], c :: r)

/-- One hex digit of a `\uXXXX` escape (`int(esc, 16)` accepts both cases). -/
def hexVal (c : Char) : Option Nat :=
  let n := c.toNat
  if 48 ≤ n && n ≤ 57 then some (n - 48)
  else if 97 ≤ n && n ≤ 102 then some (n - 87)
  else if 65 ≤ n && n ≤ 70 then some (n - 55)
  else none

/-- The four hex digits of a `\uXXXX` escape, as one number. -/
def hex4 (a b c d : Char) : Option Nat :=
  match hexVal a, hexVal b, hexVal c, hexVal d with
  | some va, some vb, some vc, some vd =>
      some (va * 4096 + vb * 256 + vc * 16 + vd)
  | _, _, _, _ => none

/-! ### JSON values

`JVal` is the image of a Python object produced by `json` decoding: `NaN` and
the infinities (which CPython's scanner accepts) are kept apart from finite
numbers, whose lexeme is retained (the claims never inspect numeric values).
Objects keep their members in source order; dict semantics (last duplicate
key wins) are applied at lookup time. -/

inductive JVal where
  | null
  | bool (b : Bool)
  | num (lexeme : List Char)
  | nan
  | inf (neg : Bool)
  | str (s : List Char)
  | arr (elems : List JVal)
  | obj (members : List (List Char × JVal))

/-! ### String scanning (CPython `scanstring`, strict mode) -/

/-- Surrogate-pair combination as in `scanstring`. -/
def combineSurrogates (hi lo : Nat) : Nat :=
  0x10000 + ((hi - 0xD800) * 1024 + (lo - 0xDC00))

/-- Scan a JSON string body after its opening quote, strict mode: raw control
characters are rejected, escapes are decoded, `\uXXXX` pairs of surrogates are
combined, lone surrogates fall back to `Char.ofNat`'s default (Python would
keep the lone surrogate; no claim depends on that corner). Fueled: every
recursive call first consumes at least one character, so any fuel above the
input length is sufficient (and callers thread the scanner's own fuel).
First, the `BACKSLASH` escape table (without `\u`, handled separately). -/
def unescapeChar (e : Char) : Option Char :=
  if e = '"' then some '"'
  else if e = '\\' then some '\\'
  else if e = '/' then some '/'
  else if e = 'b' then some (Char.ofNat 8)
  else if e = 'f' then some (Char.ofNat 12)
  else if e = 'n' then some '\n'
  else if e = 'r' then some '\r'
  else if e = 't' then some '\t'
  else none

def parseStrAux (fuel : Nat) (acc : List Char) (s : List Char) :
    Option (List Char × List Char) :=
  match fuel, s with
  | 0, _ => none
  | _ + 1, [] => none
  | fuel + 1, c :: rest =>
    if c = '"' then some (acc.reverse, rest)
    else if c = '\\' then
      match rest with
      | [] => none
      | e :: rest2 =>
        if e = 'u' then
          match rest2 with
          | a :: b :: c1 :: d :: rest3 =>
            match hex4 a b c1 d with
            | none => none
            | some n =>
              if 0xD800 ≤ n ∧ n ≤ 0xDBFF then
                match rest3 with
                | e2 :: rest4 =>
                  if e2 = '\\' then
                    match rest4 with
                    | e3 :: rest5 =>
                      if e3 = 'u' then
                        match rest5 with
                        | a2 :: b2 :: c2 :: d2 :: rest6 =>
                          match hex4 a2 b2 c2 d2 with
                          | none => none
                          | some n2 =>
                            if 0xDC00 ≤ n2 ∧ n2 ≤ 0xDFFF then
                              parseStrAux fuel
                                (Char.ofNat (combineSurrogates n n2) :: acc) rest6
                            else
                              parseStrAux fuel (Char.ofNat n :: acc)
                                ('\\' :: 'u' :: a2 :: b2 :: c2 :: d2 :: rest6)
                        | _ => none
                      else
                        parseStrAux fuel (Char.ofNat n :: acc) (e2 :: e3 :: rest5)
                    | [] => parseStrAux fuel (Char.ofNat n :: acc) [e2]
                  else parseStrAux fuel (Char.ofNat n :: acc) (e2 :: rest4)
                | [] => parseStrAux fuel (Char.ofNat n :: acc) []
              else
                parseStrAux fuel (Char.ofNat n :: acc) rest3
          | _ => none
        else
          match unescapeChar e with
          | some c2 => parseStrAux fuel (c2 :: acc) rest2
          | none => none
    else if c.toNat < 0x20 then none
    else parseStrAux fuel (c :: acc) rest

/-- Scan a standalone JSON string at its opening quote already consumed. -/
def parseStr (s : List Char) : Option (List Char × List Char) :=
  parseStrAux (s.length + 1) [] s

/-! ### Number scanning (the `NUMBER_RE` regex)

`(-?(?:0|[1-9]\d*))(\.\d+)?([eE][-+]?\d+)?`, maximal munch with the optional
groups taken only when they fully match (a `.` or `e` not followed by the
digits the group requires is left unconsumed). The lexeme is returned. -/

/-- `0` alone, or a nonzero digit followed by any digits. -/
def parseIntPart (s : List Char) : Option (List Char × List Char) :=
  match s with
  | [] => none
  | c :: r =>
    if c = '0' then some (['0'], r)
    else if isDigitChar c then
      let (ds, rest) := takeDigits r
      some (c :: ds, rest)
    else none

/-- The `(\.\d+)?` group: present only if a digit follows the dot. -/
def parseFracPart (s : List Char) : List Char × List Char :=
  match s with
  | c0 :: c :: r =>
    if c0 = '.' ∧ isDigitChar c then
      let (ds, rest) := takeDigits r
      ('.' :: c :: ds, rest)
    else ([], s)
  | _ => ([], s)

/-- The `([eE][-+]?\d+)?` group: present only if at least one digit follows
the marker and optional sign. -/
def parseExpPart (s : List Char) : List Char × List Char :=
  match s with
  | e :: rest =>
    if e = 'e' ∨ e = 'E' then
      match rest with
      | sgn :: rest2 =>
        if sgn = '+' ∨ sgn = '-' then
          match rest2 with
          | c :: r =>
            if isDigitChar c then
              let (ds, rest3) := takeDigits r
              (e :: sgn :: c :: ds, rest3)
            else ([], s)
          | [] => ([], s)
        else if isDigitChar sgn then
          let (ds, rest3) := takeDigits rest2
          (e :: sgn :: ds, rest3)
        else ([], s)
      | [] => ([], s)
    else ([], s)
  | [] => ([], s)

/-- The unsigned part of `NUMBER_RE`: integer part, then the optional
groups. -/
def parseNumBody (s : List Char) : Option (List Char × List Char) :=
  match parseIntPart s with
  | none => none
  | some (ip, s2) =>
    let (fp, s3) := parseFracPart s2
    let (ep, s4) := parseExpPart s3
    some (ip ++ fp ++ ep, s4)

/-- Match `NUMBER_RE` at the head of `s`, returning the lexeme. -/
def parseNum (s : List Char) : Option (List Char × List Char) :=
  match s with
  | '-' :: r =>
    match parseNumBody r with
    | none => none
    | some (lex, s4) => some ('-' :: lex, s4)
  | _ => parseNumBody s

/-! ### The value scanner (CPython `scan_once`)

Fueled mutual recursion; each fuel decrement is preceded by at least one
consumed character, so fuel `s.length + 1` never runs out on inputs the
scanner accepts (see `rawDecode`). `scan_once` does not skip whitespace
before a value; objects and arrays skip whitespace at their internal
junctions exactly as the scanner does. -/

/-- The scanner's literal checks (`s[idx:idx + 4] == 'null'` and friends):
consume an expected string, or fail. -/
def expectLit : List Char → List Char → Option (List Char)
  | [], s => some s
  | c :: cs, s =>
    match s with
    | c2 :: s2 => if c2 = c then expectLit cs s2 else none
    | [] => none

mutual

def parseValue (fuel : Nat) (s : List Char) : Option (JVal × List Char) :=
  match fuel, s with
  | 0, _ => none
  | _ + 1, [] => none
  | fuel + 1, c :: r =>
      if c = '"' then
        match parseStrAux fuel [] r with
        | some (cs, r1) => some (.str cs, r1)
        | none => none
      else if c = '{' then
        match skipWs r with
        | '}' :: r2 => some (.obj [], r2)
        | r1 =>
          match parseMembers fuel r1 with
          | some (ms, r2) => some (.obj ms, r2)
          | none => none
      else if c = '[' then
        match skipWs r with
        | ']' :: r2 => some (.arr [], r2)
        | r1 =>
          match parseElems fuel r1 with
          | some (es, r2) => some (.arr es, r2)
          | none => none
      else if c = 'n' then (expectLit "ull".toList r).map (fun r2 => (.null, r2))
      else if c = 't' then
        (expectLit "rue".toList r).map (fun r2 => (.bool true, r2))
      else if c = 'f' then
        (expectLit "alse".toList r).map (fun r2 => (.bool false, r2))
      else
        match parseNum (c :: r) with
        | some (lex, r1) => some (.num lex, r1)
        | none =>
          if c = 'N' then (expectLit "aN".toList r).map (fun r2 => (.nan, r2))
          else if c = 'I' then
            (expectLit "nfinity".toList r).map (fun r2 => (.inf false, r2))
          else if c = '-' then
            (expectLit "Infinity".toList r).map (fun r2 => (.inf true, r2))
          else none

/-- One-or-more members, positioned at a key's opening quote. -/
def parseMembers (fuel : Nat) (s : List Char) :
    Option (List (List Char × JVal) × List Char) :=
  match fuel, s with
  | 0, _ => none
  | _ + 1, [] => none
  | fuel + 1, c :: r =>
    if c = '"' then
      match parseStrAux fuel [] r with
      | none => none
      | some (k, r1) =>
        match skipWs r1 with
        | ':' :: r2 =>
          match parseValue fuel (skipWs r2) with
          | none => none
          | some (v, r3) =>
            match skipWs r3 with
            | ',' :: r4 =>
              match parseMembers fuel (skipWs r4) with
              | some (ms, r5) => some ((k, v) :: ms, r5)
              | none => none
            | '}' :: r4 => some ([(k, v)], r4)
            | _ => none
        | _ => none
    else none

/-- One-or-more elements, positioned at the first element (whitespace
already skipped). -/
def parseElems (fuel : Nat) (s : List Char) :
    Option (List JVal × List Char) :=
  match fuel, s with
  | 0, _ => none
  | fuel + 1, s =>
    match parseValue fuel s with
    | none => none
    | some (v, r1) =>
      match skipWs r1 with
      | ',' :: r2 =>
        match parseElems fuel (skipWs r2) with
        | some (es, r3) => some (v :: es, r3)
        | none => none
      | ']' :: r2 => some ([v], r2)
      | _ => none

end

/-- `json.JSONDecoder().raw_decode(s)`: scan one value at index 0 of `s`,
returning the value and the unconsumed remainder (the Python `end` index is
the count of consumed characters). `none` is a `json.JSONDecodeError`. -/
def rawDecode (s : List Char) : Option (JVal × List Char) :=
  parseValue (s.length + 1) s

/-! ### The Decision schema (`models.AgentState`, pydantic) -/

/-- `next_action: Literal["continue", "await_user_approval",
"handoff_to_solution_agent"]`. -/
inductive NextAction where
  | continueAction
  | awaitUserApproval
  | handoffToSolutionAgent
deriving DecidableEq

/-- `AgentState`: `thought: str`, `action: Optional[str] = None`,
`action_input: Optional[Dict[str, Any]] = None`, `next_action`,
`root_cause: Optional[str] = None`. -/
structure AgentState where
  thought : List Char
  action : Option (List Char)
  action_input : Option (List (List Char × JVal))
  next_action : NextAction
  root_cause : Option (List Char)

/-- Python dict construction from JSON members: the last duplicate key wins
(`dict(pairs)` semantics); `none` when the key is absent. -/
def lookupMember (ms : List (List Char × JVal)) (k : List Char) : Option JVal :=
  ms.foldl (fun acc kv => if kv.1 = k then some kv.2 else acc) none

/-- A required `str` field, or an `Optional[str]` one given a present value:
pydantic accepts exactly JSON strings (no coercion from numbers/bools). -/
def asStr : JVal → Option (List Char)
  | .str s => some s
  | _ => none

def validateNextAction (v : JVal) : Option NextAction :=
  match v with
  | .str s =>
    if s = "continue".toList then some .continueAction
    else if s = "await_user_approval".toList then some .awaitUserApproval
    else if s = "handoff_to_solution_agent".toList then some .handoffToSolutionAgent
    else none
  | _ => none

/-- An `Optional[T]` field: absent or JSON `null` become `None`; a present
value must satisfy the inner validator. -/
def validateOpt (f : JVal → Option α) (v : Option JVal) : Option (Option α) :=
  match v with
  | none => some none
  | some .null => some none
  | some w => (f w).map some

/-- `AgentState.model_validate(obj)`: requires a mapping; extra keys are
ignored (pydantic's default); missing required fields or wrong shapes are a
`ValidationError` (`none`). -/
def AgentState.model_validate (v : JVal) : Option AgentState :=
  match v with
  | .obj ms => do
    let thought ← (lookupMember ms "thought".toList).bind asStr
    let next_action ← (lookupMember ms "next_action".toList).bind validateNextAction
    let action ← validateOpt asStr (lookupMember ms "action".toList)
    let action_input ←
      validateOpt (fun w => match w with | .obj m => some m | _ => none)
        (lookupMember ms "action_input".toList)
    let root_cause ← validateOpt asStr (lookupMember ms "root_cause".toList)
    return ⟨thought, action, action_input, next_action, root_cause⟩
  | _ => none

/-- `AgentState.model_validate_json(text)`: parse `text` as one complete JSON
document (surrounding whitespace allowed) and validate it. -/
def AgentState.model_validate_json (s : List Char) : Option AgentState :=
  match parseValue (s.length + 1) (skipWs s) with
  | some (v, rest) => if skipWs rest = [] then AgentState.model_validate v else none
  | none => none

/-! ### The Streaming Decision Assembler
(`_flush_diag_stream`, `workflow_api.py` lines 121-150)

```
buffer += update.text
while True:
    start = buffer.find("{")
    if start == -1: break
    try:
        obj, end = decoder.raw_decode(buffer[start:])
        state_flush = AgentState.model_validate(obj)
        ... emit ...
        buffer = buffer[start + end:]
    except json.JSONDecodeError: break
    except Exception: buffer = buffer[start + 1:]
```

Note `buffer[start + end:]` equals the remainder returned by `rawDecode`
(consumption starts at `start`), and the validation-failure arm advances one
character past the `{`. Emission (`ws.send_json`) is modelled as appending to
the returned event list; send failures are transport faults outside this
model. -/

/-- `buffer.find("{")`. -/
def findBrace : List Char → Option Nat
  | [] => none
  | c :: r => if c = '{' then some 0 else (findBrace r).map (· + 1)

/-- One turn's `while True` loop over the buffer, fueled (each continuing
iteration consumes at least one character — see `drainAux_fuel_irrel`). -/
def drainAux (fuel : Nat) (buffer : List Char) : List AgentState × List Char :=
  match fuel with
  | 0 => ([], buffer)
  | fuel + 1 =>
    match findBrace buffer with
    | none => ([], buffer)
    | some start =>
      match rawDecode (buffer.drop start) with
      | none => ([], buffer)
      | some (obj, rest) =>
        match AgentState.model_validate obj with
        | some st =>
          let (evs, b) := drainAux fuel rest
          (st :: evs, b)
        | none => drainAux fuel (buffer.drop (start + 1))

/-- Exhaustively extract decisions from the buffer. -/
def drain (buffer : List Char) : List AgentState × List Char :=
  drainAux (buffer.length + 1) buffer

/-- The `async for update` loop: append each fragment, then drain. -/
def feedChunks (buffer : List Char) : List (List Char) → List AgentState × List Char
  | [] => ([], buffer)
  | c :: cs =>
    let (evs, b) := drain (buffer ++ c)
    let (evs2, b2) := feedChunks b cs
    (evs ++ evs2, b2)

/-- A whole turn's stream, fragment by fragment, starting from the empty
buffer (`buffer = ""` at the top of `_flush_diag_stream`). -/
def processStream (chunks : List (List Char)) : List AgentState × List Char :=
  feedChunks [] chunks

/-! ### SHA-1 (`hashlib.sha1`), from FIPS 180: needed by
`HealthIssue.compute_issue_id`. Words are `Nat` reduced mod `2^32`. -/

def w32 (n : Nat) : Nat := n % 4294967296

def rotl32 (x k : Nat) : Nat := w32 ((x <<< k) ||| (x >>> (32 - k)))

def sha1F (t b c d : Nat) : Nat :=
  if t < 20 then (b &&& c) ||| ((b ^^^ 0xFFFFFFFF) &&& d)
  else if t < 40 then b ^^^ c ^^^ d
  else if t < 60 then (b &&& c) ||| (b &&& d) ||| (c &&& d)
  else b ^^^ c ^^^ d

def sha1K (t : Nat) : Nat :=
  if t < 20 then 0x5A827999
  else if t < 40 then 0x6ED9EBA1
  else if t < 60 then 0x8F1BBCDC
  else 0xCA62C1D6

/-- `k` bytes of `n`, big-endian. -/
def bytesBE : Nat → Nat → List Nat
  | 0, _ => []
  | k + 1, n => (n >>> (8 * k)) % 256 :: bytesBE k n

/-- Message padding: `0x80`, zeros to 56 mod 64, then the bit length in 8
big-endian bytes. -/
def sha1Pad (msg : List Nat) : List Nat :=
  let L := msg.length
  let z := (64 + 56 - (L + 1) % 64) % 64
  msg ++ 0x80 :: List.replicate z 0 ++ bytesBE 8 (L * 8)

def bytesToWords : List Nat → List Nat
  | b0 :: b1 :: b2 :: b3 :: r =>
    (((b0 * 256 + b1) * 256 + b2) * 256 + b3) :: bytesToWords r
  | _ => []

/-- Extend the 16 chunk words with `n` more schedule words. -/
def sha1Extend (ws : List Nat) : Nat → List Nat
  | 0 => ws
  | n + 1 =>
    let i := ws.length
    let w := rotl32 ((ws.getD (i - 3) 0) ^^^ (ws.getD (i - 8) 0) ^^^
                    (ws.getD (i - 14) 0) ^^^ (ws.getD (i - 16) 0)) 1
    sha1Extend (ws ++ [w]) n

/-- The 80 rounds over one chunk's schedule. -/
def sha1Rounds (sched : List Nat) (st : Nat × Nat × Nat × Nat × Nat × Nat) :
    Nat × Nat × Nat × Nat × Nat :=
  match sched with
  | [] => st.2
  | wt :: r =>
    let (t, a, b, c, d, e) := st
    let tmp := w32 (rotl32 a 5 + sha1F t b c d + e + sha1K t + wt)
    sha1Rounds r (t + 1, tmp, a, rotl32 b 30, c, d)

def sha1Chunk (h : Nat × Nat × Nat × Nat × Nat) (chunk : List Nat) :
    Nat × Nat × Nat × Nat × Nat :=
  let (h0, h1, h2, h3, h4) := h
  let sched := sha1Extend (bytesToWords chunk) 64
  let (a, b, c, d, e) := sha1Rounds sched (0, h0, h1, h2, h3, h4)
  (w32 (h0 + a), w32 (h1 + b), w32 (h2 + c), w32 (h3 + d), w32 (h4 + e))

/-- Split into 64-byte chunks (fueled by the length: every step drops at
least one element). -/
def chunks64Aux (fuel : Nat) (l : List Nat) : List (List Nat) :=
  match fuel, l with
  | _, [] => []
  | 0, _ => []
  | fuel + 1, c :: r => (c :: r).take 64 :: chunks64Aux fuel ((c :: r).drop 64)

def chunks64 (l : List Nat) : List (List Nat) := chunks64Aux l.length l

/-- SHA-1 digest of a byte sequence, as 20 bytes. -/
def sha1 (msg : List Nat) : List Nat :=
  let (h0, h1, h2, h3, h4) :=
    (chunks64 (sha1Pad msg)).foldl sha1Chunk
      (0x67452301, 0xEFCDAB89, 0x98BADCFE, 0x10325476, 0xC3D2E1F0)
  bytesBE 4 h0 ++ bytesBE 4 h1 ++ bytesBE 4 h2 ++ bytesBE 4 h3 ++ bytesBE 4 h4

def hexDigitChar (n : Nat) : Char :=
  if n < 10 then Char.ofNat ('0'.toNat + n) else Char.ofNat ('a'.toNat + n - 10)

/-- `.hexdigest()`: two lowercase hex characters per byte. -/
def hexDigest (bytes : List Nat) : List Char :=
  (bytes.map (fun b => [hexDigitChar (b / 16), hexDigitChar (b % 16)])).flatten

/-- `str.encode("utf-8")`. -/
def utf8EncodeChar (c : Char) : List Nat :=
  let n := c.toNat
  if n < 0x80 then [n]
  else if n < 0x800 then [0xC0 ||| (n >>> 6), 0x80 ||| (n &&& 0x3F)]
  else if n < 0x10000 then
    [0xE0 ||| (n >>> 12), 0x80 ||| ((n >>> 6) &&& 0x3F), 0x80 ||| (n &&& 0x3F)]
  else
    [0xF0 ||| (n >>> 18), 0x80 ||| ((n >>> 12) &&& 0x3F),
     0x80 ||| ((n >>> 6) &&& 0x3F), 0x80 ||| (n &&& 0x3F)]

def utf8Encode (s : List Char) : List Nat := (s.map utf8EncodeChar).flatten

/-! ### `models.HealthIssue` -/

inductive ResourceType where
  | Pod
  | Node
  | Deployment
  | Other
deriving DecidableEq

/-- The enum's `.value` string. -/
def ResourceType.value : ResourceType → List Char
  | .Pod => "Pod".toList
  | .Node => "Node".toList
  | .Deployment => "Deployment".toList
  | .Other => "Other".toList

/-- `str.strip()` whitespace (ASCII portion; the claims' inputs are ASCII). -/
def isStripWs (c : Char) : Bool :=
  c = ' ' || c = '\t' || c = '\n' || c = '\r' || c = '\x0b' || c = '\x0c'

def pyStrip (s : List Char) : List Char :=
  ((s.dropWhile isStripWs).reverse.dropWhile isStripWs).reverse

/-- `str.lower()` (ASCII portion, matching `Char.toLower`). -/
def pyLower (s : List Char) : List Char := s.map Char.toLower

/-- `x or "-"` on an optional string: `None` and `""` are falsy. -/
def orDash (v : Option (List Char)) : List Char :=
  match v with
  | none => "-".toList
  | some s => if s = [] then "-".toList else s

/-- `HealthIssue`: `namespace` is spelled `nspace` (Lean keyword). -/
structure HealthIssue where
  issueType : List Char
  severity : List Char
  resourceType : ResourceType
  nspace : Option (List Char) := none
  resourceName : List Char
  container : Option (List Char) := none
  unhealthySince : List Char
  unhealthyTimespan : Int
  message : List Char
  issueId : Option (List Char) := none

/-- `HealthIssue.canonical_key`: the pipe-join of
`[issueType, resourceType, namespace, resourceName, container]`, each run
through `or "-"`, `.strip()`, `.lower()` in that order. -/
def HealthIssue.canonical_key (i : HealthIssue) : List Char :=
  let ns := pyLower (pyStrip (orDash i.nspace))
  let rt := pyLower (pyStrip i.resourceType.value)
  let it := pyLower (pyStrip (orDash (some i.issueType)))
  let rn := pyLower (pyStrip (orDash (some i.resourceName)))
  let cn := pyLower (pyStrip (orDash i.container))
  it ++ '|' :: rt ++ '|' :: ns ++ '|' :: rn ++ '|' :: cn

/-- `HealthIssue.compute_issue_id`: `"iss-"` plus the first 12 hex digits of
the SHA-1 of the UTF-8 canonical key. -/
def HealthIssue.compute_issue_id (i : HealthIssue) : List Char :=
  "iss-".toList ++ (hexDigest (sha1 (utf8Encode i.canonical_key))).take 12

/-- The `@model_validator(mode="after") _populate_issue_id` hook, run on
every construction: `if not self.issueId: self.issueId = compute_issue_id()`. -/
def HealthIssue.populate_issue_id (i : HealthIssue) : HealthIssue :=
  match i.issueId with
  | none => { i with issueId := some i.compute_issue_id }
  | some s => if s = [] then { i with issueId := some i.compute_issue_id } else i

/-! ### `skills/k8s_diag.py`: `get_pod_diagnostics`

The `kubernetes` client is an external collaborator, modelled as an oracle
of `Except`-valued calls (`.error` = the call raised). The collector itself
returns `Except (List Char) (List Char)`: `.error` means an exception
escaped the collector to its caller, `.ok` is the returned string. -/

/-- What `read_namespaced_pod` yields, reduced to the fields the collector
reads. `lastExit` is the first container's `last_state.terminated`. -/
structure PodInfo where
  phase : List Char
  restartCount : Nat
  lastExitCode : Option Int
  lastExitReason : Option (List Char)

structure K8sEnv where
  /-- `client is None` after the guarded import failed. -/
  clientInstalled : Bool
  /-- `config.load_incluster_config()`. -/
  inclusterLoad : Except (List Char) Unit
  /-- `config.load_kube_config()`. -/
  kubeConfigLoad : Except (List Char) Unit
  /-- The module-level `_v1_api` memo already holds an api object. -/
  v1Cached : Bool
  /-- `v1.read_namespaced_pod(name, namespace)`. -/
  readNamespacedPod : List Char → List Char → Except (List Char) PodInfo
  /-- `v1.read_namespaced_pod_log(name, namespace, ...)`; the flag is
  `previous`. -/
  readPodLog : List Char → List Char → Bool → Except (List Char) (List Char)

/-- `_load_kube_config`: in-cluster first, local kubeconfig as fallback; a
fallback failure propagates. (`config is None` shares `clientInstalled`
since both names come from the same guarded import.) -/
def load_kube_config (env : K8sEnv) : Except (List Char) Unit :=
  if !env.clientInstalled then .ok ()
  else
    match env.inclusterLoad with
    | .ok () => .ok ()
    | .error _ => env.kubeConfigLoad

/-- `get_v1_api`: memoized construction, loading config on a cache miss. -/
def get_v1_api (env : K8sEnv) : Except (List Char) Unit :=
  if env.v1Cached then .ok ()
  else load_kube_config env

/-- `json.dumps` of the diagnostics report: rendered opaquely but
injectively from its fields (no claim inspects the rendering). -/
def renderPodReport (p : PodInfo) (currentLogs prevLogs : List Char) : List Char :=
  "report:".toList ++ p.phase ++ '|' ::
    (toString p.restartCount).toList ++ '|' ::
    (toString p.lastExitCode).toList ++ '|' ::
    (match p.lastExitReason with | none => "None".toList | some r => r) ++ '|' ::
    currentLogs ++ '|' :: prevLogs

/-- `get_pod_diagnostics(name, namespace)`: the config/API-handle steps run
before the `try`, so their exceptions escape; everything inside the `try`
is converted to a `"Tool Error: ..."` string, with the two log fetches
further guarded by inner handlers. -/
def get_pod_diagnostics (env : K8sEnv) (name nspace : List Char) :
    Except (List Char) (List Char) :=
  if !env.clientInstalled then .ok "Tool Error: kubernetes client not installed".toList
  else do
    let () ← load_kube_config env
    let () ← get_v1_api env
    match env.readNamespacedPod name nspace with
    | .error e => .ok ("Tool Error: ".toList ++ e)
    | .ok pod =>
      let currentLogs :=
        match env.readPodLog name nspace false with
        | .ok l => l
        | .error _ => "(no current logs)".toList
      let prevLogs :=
        if pod.restartCount > 0 then
          match env.readPodLog name nspace true with
          | .ok l => l
          | .error _ => "(no previous logs)".toList
        else []
      .ok (renderPodReport pod currentLogs prevLogs)

/-! ### The Turn Controller (`workflow_ws`, lines 374-467)

One session's turn loop, after the start handshake and thread selection.
The reasoning engine, thread store and operator are external collaborators,
bundled per turn into a `TurnOracle`; the loop itself — bounds checks,
history filtering, decision validation, intervention mapping, registry
writes — is embedded faithfully. Events are the payloads passed to
`ws.send_json`, reduced to the fields the claims mention. -/

/-- A message as returned by `agents_client.messages.list` (newest first):
`role`, a `text` attribute, and the `text_messages` texts. -/
structure RawMessage where
  role : List Char
  text : List Char
  textMessages : List (List Char)

/-- The text extraction shared by `_get_clean_history` and
`_get_last_message_text`: the last `text_messages` entry if any, else
`.text`. -/
def extractText (m : RawMessage) : List Char :=
  match m.textMessages.getLast? with
  | some t => t
  | none => m.text

/-- `_get_clean_history`: drop `user` messages unless asked otherwise, keep
`(role, text)`, and reverse the store's newest-first order. -/
def get_clean_history (msgs : List RawMessage) (user_message_included : Bool := false) :
    List (List Char × List Char) :=
  ((msgs.filter (fun m => user_message_included || !(m.role = "user".toList))).map
    (fun m => (m.role, extractText m))).reverse

/-- An inbound operator reply at an intervention checkpoint: the websocket
disconnected, the frame was not JSON, or a JSON message with its `type` and
optional `decision` fields (decisions are modelled as strings; a non-string
`decision` compares unequal to `"approve"`/`"deny"` just the same). -/
inductive OperatorReply where
  | disconnect
  | malformed
  | msg (mtype : List Char) (decision : Option (List Char))

inductive WsStatus where
  | in_progress
  | handoff
deriving DecidableEq

/-- Outbound events (`WebSocketPayload.event` and the raw error dicts),
with the payload fields the claims inspect. -/
inductive WsEvent where
  | history
  | diagnostic (state : AgentState)
  | awaiting_approval
  | handoff_approval
  | resume_available
  | handoffEvent
  | complete (status : WsStatus)
  | errorEvent

/-- The inbound message type expected at a checkpoint. -/
def interveneType : List Char := "intervene".toList

/-- The recognized decision values. -/
def approveDecision : List Char := "approve".toList

def denyDecision : List Char := "deny".toList

def handoffDecision : List Char := "handoff".toList

/-- `_ask_intervention`: send the checkpoint event, then read one reply;
a wrong `type` answers with an error event and `None`; disconnects and
undecodable frames answer `None` silently. -/
def ask_intervention (checkpoint : WsEvent) (reply : OperatorReply) :
    List WsEvent × Option (List Char) :=
  match reply with
  | .disconnect => ([checkpoint], none)
  | .malformed => ([checkpoint], none)
  | .msg mtype decision =>
    if !(mtype = interveneType) then ([checkpoint, .errorEvent], none)
    else ([checkpoint], decision)

/-- The per-issue registry entry (`ISSUE_THREAD_MAP[issue_id]`). -/
structure RegistryEntry where
  diag_thread_id : Option Nat := none
  sol_thread_id : Option Nat := none

/-- The engine/store behaviour during one turn: the streamed fragments
(`update.text`, `None` updates already skipped), the thread contents
afterwards (newest first), the solution thread the handoff stage would
create, and the operator's reply if a checkpoint is reached. -/
structure TurnOracle where
  chunks : List (List Char)
  thread : List RawMessage
  reply : OperatorReply

/-- The diagnostic thread's service id, fixed for the session. -/
def diagTid : Nat := 0

/-- The solution thread id created by the handoff stage. -/
def solTid : Nat := 1

/-- `_run_solution_and_emit`, reduced to its observable effects: record both
thread ids for the issue, then emit `handoff`, the refreshed histories, and
`complete{handoff}`. (The solution engine call and its best-effort response
parse carry no control flow.) -/
def run_solution_and_emit (reg : RegistryEntry) : List WsEvent × RegistryEntry :=
  ([.handoffEvent, .history, .complete .handoff],
   { diag_thread_id := some diagTid, sol_thread_id := some solTid })

/-- Why the loop stopped. -/
inductive LoopOutcome where
  | ceiling
  | handoffDone
  | protocolError
deriving DecidableEq

/-- How a turn ends: loop again with a new `current_input`, or leave the
loop. -/
inductive TurnResult where
  | next (input : List Char)
  | stop (outcome : LoopOutcome)

/-- `max_steps = 12`. -/
def max_steps : Nat := 12

/-- The thread-length ceiling (`if len(history) >= 50`). -/
def historyCeiling : Nat := 50

/-- `history[-1]["text"] if history else ""` over the cleaned history. -/
def lastCleanText (msgs : List RawMessage) : List Char :=
  match (get_clean_history msgs).getLast? with
  | some p => p.2
  | none => []

/-- The turn's governing Decision: strict JSON validation of the last
cleaned message. -/
def decisionOf (msgs : List RawMessage) : Option AgentState :=
  AgentState.model_validate_json (lastCleanText msgs)

/-- One iteration of the `while step_count < max_steps` body: flush the
stream (emitting one `diagnostic` event per assembled Decision and
recording the diagnostic thread id), reload the cleaned history, check the
thread-length ceiling, validate the governing Decision, and apply the
next-action / intervention mapping. -/
def turnStep (o : TurnOracle) (reg : RegistryEntry) :
    List WsEvent × RegistryEntry × TurnResult :=
  let diagEvents := (processStream o.chunks).1.map WsEvent.diagnostic
  let reg1 := { reg with diag_thread_id := some diagTid }
  let history := get_clean_history o.thread
  let state := decisionOf o.thread
  if historyCeiling ≤ history.length then
    (diagEvents ++ [.complete .in_progress], reg1, .stop .ceiling)
  else
    match state with
    | none => (diagEvents, reg1, .next "Continue.".toList)
    | some st =>
      match st.next_action with
      | .handoffToSolutionAgent =>
        let (evs, decision) := ask_intervention .handoff_approval o.reply
        match decision with
        | some d =>
          if d = approveDecision then
            let (sevs, reg2) := run_solution_and_emit reg1
            (diagEvents ++ evs ++ sevs, reg2, .stop .handoffDone)
          else if d = denyDecision then
            (diagEvents ++ evs, reg1,
             .next "Handoff DENIED. Continue diagnosis.".toList)
          else (diagEvents ++ evs ++ [.errorEvent], reg1, .stop .protocolError)
        | none => (diagEvents ++ evs ++ [.errorEvent], reg1, .stop .protocolError)
      | .awaitUserApproval =>
        let (evs, decision) := ask_intervention .awaiting_approval o.reply
        match decision with
        | some d =>
          if d = approveDecision then
            (diagEvents ++ evs, reg1, .next "Action APPROVED. Proceed.".toList)
          else if d = denyDecision then
            (diagEvents ++ evs, reg1, .next "Action DENIED.".toList)
          else if d = handoffDecision then
            (diagEvents ++ evs, reg1, .next "Manual Handoff requested.".toList)
          else (diagEvents ++ evs ++ [.errorEvent], reg1, .stop .protocolError)
        | none => (diagEvents ++ evs ++ [.errorEvent], reg1, .stop .protocolError)
      | .continueAction => (diagEvents, reg1, .next "Continue.".toList)

/-- The turn loop: at most `remaining` more iterations, the engine/operator
behaviour for turn `idx` given by `env idx`. Returns the emitted events,
`some` outcome if the loop left via `break` (or `none` if `step_count`
reached `max_steps`, which exits the `while` silently), the final registry
entry, and the number of turns run. -/
def runTurns (env : Nat → TurnOracle) (remaining idx : Nat) (input : List Char)
    (reg : RegistryEntry) :
    List WsEvent × Option LoopOutcome × RegistryEntry × Nat :=
  match remaining with
  | 0 => ([], none, reg, 0)
  | r + 1 =>
    let (evs, reg1, res) := turnStep (env idx) reg
    match res with
    | .stop out => (evs, some out, reg1, 1)
    | .next inp =>
      let (evs2, out, reg2, n) := runTurns env r (idx + 1) inp reg1
      (evs ++ evs2, out, reg2, n + 1)

/-- The whole loop of `workflow_ws` from `step_count = 0`. -/
def workflow_loop (env : Nat → TurnOracle) (input : List Char) (reg : RegistryEntry) :
    List WsEvent × Option LoopOutcome × RegistryEntry × Nat :=
  runTurns env max_steps 0 input reg

/-! ### Statement vocabulary for the claims -/

/-- "Equal up to letter casing and surrounding whitespace" on a string
field: equal after `strip` and `lower`. -/
def caseWsKey (s : List Char) : List Char := pyLower (pyStrip s)

/-- Python truthiness test of an optional string (`not x`). -/
def pyFalsy (v : Option (List Char)) : Bool :=
  match v with
  | none => true
  | some s => s.isEmpty

/-- `SafeRest r`: the remainder begins with a character that cannot extend a
`NUMBER_RE` match (so a successful number parse is stable under appending
input). Grammar positions after a value inside an object or array always
satisfy it. -/
def isNumCont (c : Char) : Bool :=
  isDigitChar c || c = '.' || c = 'e' || c = 'E' || c = '+' || c = '-'

def SafeRest : List Char → Prop
  | [] => False
  | c :: _ => isNumCont c = false

/-- The condition under which a scanned value's remainder is stable under
appending more input: only bare numbers need a non-extending next
character. -/
def NumGuard : JVal → List Char → Prop
  | .num _, r => SafeRest r
  | _, _ => True

/-- The assembler the specification describes for schema-invalid objects:
identical to `drainAux`, except that a validation failure advances the
cursor past the whole decoded span (`rest`) instead of one character past
the `{`. Kept solely to compare against the implemented `drain`. -/
def drainSpecAux (fuel : Nat) (buffer : List Char) : List AgentState × List Char :=
  match fuel with
  | 0 => ([], buffer)
  | fuel + 1 =>
    match findBrace buffer with
    | none => ([], buffer)
    | some start =>
      match rawDecode (buffer.drop start) with
      | none => ([], buffer)
      | some (obj, rest) =>
        match AgentState.model_validate obj with
        | some st =>
          let (evs, b) := drainSpecAux fuel rest
          (st :: evs, b)
        | none => drainSpecAux fuel rest

def drainSpec (buffer : List Char) : List AgentState × List Char :=
  drainSpecAux (buffer.length + 1) buffer

/-! ### Concrete instances for counterexamples and witnesses -/

/-- A complete, schema-valid Decision text. -/
def decisionText : List Char :=
  "\x7b\"thought\": \"t\", \"next_action\": \"continue\"\x7d".toList

/-- The `AgentState` that `decisionText` validates to. -/
def decisionState : AgentState :=
  ⟨"t".toList, none, none, .continueAction, none⟩

/-- The parsed `JVal` of `decisionText`. -/
def decisionJVal : JVal :=
  .obj [("thought".toList, .str "t".toList),
        ("next_action".toList, .str "continue".toList)]

/-- The parsed `JVal` of `nestedText` (below). -/
def nestedJVal : JVal := .obj [("a".toList, decisionJVal)]

/-- Malformed JSON starting at a `{` for a reason other than truncation. -/
def badBrace : List Char := "\x7bnot json\x7d".toList

/-- A well-formed JSON object that fails Decision validation, with a
schema-valid Decision nested inside its decoded span. -/
def nestedText : List Char :=
  ("\x7b\"a\": ".toList ++ decisionText ++ ['\x7d'])

/-- A sample `HealthIssue` record (no caller-supplied id). -/
def sampleIssue : HealthIssue :=
  { issueType := "CrashLoopBackOff".toList
    severity := "High".toList
    resourceType := .Pod
    nspace := some "default".toList
    resourceName := "web-0".toList
    container := some "web".toList
    unhealthySince := "02h 15m".toList
    unhealthyTimespan := 8100
    message := "container restarting".toList
    issueId := none }

/-- `sampleIssue` with namespace `""` (falsy: the `or "-"` placeholder
applies) — compare `sampleIssueSpaceNs`. -/
def sampleIssueEmptyNs : HealthIssue := { sampleIssue with nspace := some [] }

/-- `sampleIssue` with namespace `" "` (truthy: stripped to `""`, no
placeholder). -/
def sampleIssueSpaceNs : HealthIssue := { sampleIssue with nspace := some [' '] }

/-- An assistant thread message whose text is not valid Decision JSON. -/
def chatterMsg : RawMessage :=
  { role := "assistant".toList, text := "investigating".toList, textMessages := [] }

/-- An assistant thread message carrying `decisionText`, plus older chatter
(newest first, as the store returns them). -/
def decisionThread : List RawMessage :=
  [{ role := "assistant".toList, text := decisionText, textMessages := [] },
   { role := "user".toList, text := "Investigate.".toList, textMessages := [] },
   chatterMsg]

/-- A thread whose newest message is a handoff Decision. -/
def handoffText : List Char :=
  ("\x7b\"thought\": \"t\", \"next_action\": \"handoff_to_solution_agent\", " ++
   "\"root_cause\": \"rc\"\x7d").toList

def handoffThread : List RawMessage :=
  [{ role := "assistant".toList, text := handoffText, textMessages := [] }]

/-- An engine that streams nothing and never produces a valid Decision. -/
def envNoDecision : Nat → TurnOracle :=
  fun _ => { chunks := [], thread := [chatterMsg], reply := .disconnect }

/-- The Decision carried by `handoffText`. -/
def stHandoff : AgentState :=
  ⟨"t".toList, none, none, .handoffToSolutionAgent, some "rc".toList⟩

/-- A user-role message. -/
def userMsg : RawMessage :=
  { role := "user".toList, text := "Investigate.".toList, textMessages := [] }

/-- A thread already holding 50 non-user messages. -/
def ceilingThread : List RawMessage := List.replicate 50 chatterMsg

/-- An engine whose thread has hit the 50-message ceiling. -/
def envCeiling : Nat → TurnOracle :=
  fun _ => { chunks := [], thread := ceilingThread, reply := .disconnect }

/-- A turn whose Decision is handoff and whose operator denies. -/
def oracleHandoffDeny : TurnOracle :=
  { chunks := []
    thread := handoffThread
    reply := .msg interveneType (some denyDecision) }

/-- A turn whose Decision is handoff and whose operator sends
`intervene{decision=bogus}`. -/
def oracleHandoffBogus : TurnOracle :=
  { chunks := []
    thread := handoffThread
    reply := .msg interveneType (some "bogus".toList) }

/-- A turn whose Decision is handoff and whose operator approves. -/
def oracleHandoffApprove : TurnOracle :=
  { chunks := []
    thread := handoffThread
    reply := .msg interveneType (some approveDecision) }

/-- A Kubernetes oracle whose config loading is broken: in-cluster and
local kubeconfig both raise. -/
def envConfigBroken : K8sEnv :=
  { clientInstalled := true
    inclusterLoad := .error "no service account token".toList
    kubeConfigLoad := .error "kubeconfig missing".toList
    v1Cached := false
    readNamespacedPod := fun _ _ => .error "unreachable".toList
    readPodLog := fun _ _ _ => .error "unreachable".toList }

/-- A healthy config whose pod read raises an `ApiException`. -/
def envPodReadFails : K8sEnv :=
  { clientInstalled := true
    inclusterLoad := .ok ()
    kubeConfigLoad := .error "unused".toList
    v1Cached := false
    readNamespacedPod := fun _ _ => .error "(404) pod not found".toList
    readPodLog := fun _ _ _ => .ok "logs".toList }

/-! ## Theorems -/

/-! ### Issue identity (C5, C10) -/

/-- `x or "-"` keys agree whenever the raw values agree up to case and
surrounding whitespace *and* agree on Python truthiness (the `or` fires
before stripping). -/
theorem caseWsKey_orDash_congr (v1 v2 : Option (List Char))
    (hk : v1.map caseWsKey = v2.map caseWsKey) (hf : pyFalsy v1 = pyFalsy v2) :
    caseWsKey (orDash v1) = caseWsKey (orDash v2) := by
  cases v1 with
  | none =>
    cases v2 with
    | none => rfl
    | some b => simp at hk
  | some a =>
    cases v2 with
    | none => simp at hk
    | some b =>
      simp [pyFalsy] at hf
      simp at hk
      by_cases ha : a = []
      · have hb : b = [] := by
          subst ha
          simpa using hf.symm
        simp [orDash, ha, hb]
      · have hb : ¬b = [] := by
          intro hb
          apply ha
          subst hb
          simpa using hf
        simpa [orDash, ha, hb] using hk

/-- The canonical keys of two issues agree under fieldwise case/whitespace
equivalence plus truthiness agreement. -/
theorem canonical_key_congr (i1 i2 : HealthIssue)
    (hit : caseWsKey i1.issueType = caseWsKey i2.issueType)
    (hitF : i1.issueType.isEmpty = i2.issueType.isEmpty)
    (hrt : i1.resourceType = i2.resourceType)
    (hns : i1.nspace.map caseWsKey = i2.nspace.map caseWsKey)
    (hnsF : pyFalsy i1.nspace = pyFalsy i2.nspace)
    (hrn : caseWsKey i1.resourceName = caseWsKey i2.resourceName)
    (hrnF : i1.resourceName.isEmpty = i2.resourceName.isEmpty)
    (hcn : i1.container.map caseWsKey = i2.container.map caseWsKey)
    (hcnF : pyFalsy i1.container = pyFalsy i2.container) :
    i1.canonical_key = i2.canonical_key := by
  have h1 : caseWsKey (orDash (some i1.issueType)) =
      caseWsKey (orDash (some i2.issueType)) :=
    caseWsKey_orDash_congr _ _ (by simpa using hit) (by simpa [pyFalsy] using hitF)
  have h2 : caseWsKey (orDash (some i1.resourceName)) =
      caseWsKey (orDash (some i2.resourceName)) :=
    caseWsKey_orDash_congr _ _ (by simpa using hrn) (by simpa [pyFalsy] using hrnF)
  have h3 : caseWsKey (orDash i1.nspace) = caseWsKey (orDash i2.nspace) :=
    caseWsKey_orDash_congr _ _ hns hnsF
  have h4 : caseWsKey (orDash i1.container) = caseWsKey (orDash i2.container) :=
    caseWsKey_orDash_congr _ _ hcn hcnF
  simp only [HealthIssue.canonical_key]
  rw [hrt] at *
  simp only [caseWsKey] at h1 h2 h3 h4
  rw [h1, h2, h3, h4]

/-- C5: the derived identity key is "iss-" plus the first 12 hex digits of
the SHA-1 of the canonical key, and it is invariant under letter casing and
surrounding whitespace of the five canonical fields — *provided* the fields
also agree on being empty/absent, since the `"-"` placeholder is substituted
before stripping (see `issue_identity_counterexample` for why that proviso
is necessary). -/
theorem issue_identity_deterministic (i1 i2 : HealthIssue)
    (hit : caseWsKey i1.issueType = caseWsKey i2.issueType)
    (hitF : i1.issueType.isEmpty = i2.issueType.isEmpty)
    (hrt : i1.resourceType = i2.resourceType)
    (hns : i1.nspace.map caseWsKey = i2.nspace.map caseWsKey)
    (hnsF : pyFalsy i1.nspace = pyFalsy i2.nspace)
    (hrn : caseWsKey i1.resourceName = caseWsKey i2.resourceName)
    (hrnF : i1.resourceName.isEmpty = i2.resourceName.isEmpty)
    (hcn : i1.container.map caseWsKey = i2.container.map caseWsKey)
    (hcnF : pyFalsy i1.container = pyFalsy i2.container) :
    (HealthIssue.populate_issue_id { i1 with issueId := none }).issueId =
      (HealthIssue.populate_issue_id { i2 with issueId := none }).issueId ∧
    (HealthIssue.populate_issue_id { i1 with issueId := none }).issueId =
      some ("iss-".toList ++
        (hexDigest (sha1 (utf8Encode i1.canonical_key))).take 12) := by
  have hkey : i1.canonical_key = i2.canonical_key :=
    canonical_key_congr i1 i2 hit hitF hrt hns hnsF hrn hrnF hcn hcnF
  have hck1 : HealthIssue.canonical_key { i1 with issueId := none } =
      i1.canonical_key := rfl
  have hck2 : HealthIssue.canonical_key { i2 with issueId := none } =
      i2.canonical_key := rfl
  constructor
  · simp [HealthIssue.populate_issue_id, HealthIssue.compute_issue_id, hck1, hck2, hkey]
  · simp [HealthIssue.populate_issue_id, HealthIssue.compute_issue_id, hck1]

/-- C5 witness: the worked spec example — CrashLoopBackOff on pod
`web-0`/`web` in `default` — yields the same key on repeated construction,
and it is the truncated SHA-1 tag. -/
theorem issue_identity_deterministic_witness :
    (HealthIssue.populate_issue_id { sampleIssue with issueId := none }).issueId =
      (HealthIssue.populate_issue_id { sampleIssue with issueId := none }).issueId ∧
    (HealthIssue.populate_issue_id { sampleIssue with issueId := none }).issueId =
      some ("iss-".toList ++
        (hexDigest (sha1 (utf8Encode sampleIssue.canonical_key))).take 12) :=
  issue_identity_deterministic sampleIssue sampleIssue rfl rfl rfl rfl rfl rfl rfl rfl rfl

set_option maxRecDepth 4000 in
/-- C5 counterexample: namespaces `""` and `" "` are equal after stripping
surrounding whitespace (and all other fields are identical), yet the two
derived identity keys differ, because `""` is falsy and becomes the `"-"`
placeholder while `" "` is truthy and strips to `""`. -/
theorem issue_identity_counterexample :
    sampleIssueEmptyNs.nspace.map caseWsKey = sampleIssueSpaceNs.nspace.map caseWsKey ∧
    sampleIssueEmptyNs.issueType = sampleIssueSpaceNs.issueType ∧
    sampleIssueEmptyNs.resourceType = sampleIssueSpaceNs.resourceType ∧
    sampleIssueEmptyNs.resourceName = sampleIssueSpaceNs.resourceName ∧
    sampleIssueEmptyNs.container = sampleIssueSpaceNs.container ∧
    (HealthIssue.populate_issue_id sampleIssueEmptyNs).issueId ≠
      (HealthIssue.populate_issue_id sampleIssueSpaceNs).issueId := by
  refine ⟨by decide, rfl, rfl, rfl, rfl, ?_⟩
  have h1 : (HealthIssue.populate_issue_id sampleIssueEmptyNs).issueId =
      some "iss-4c73a64d8859".toList := by decide
  have h2 : (HealthIssue.populate_issue_id sampleIssueSpaceNs).issueId =
      some "iss-84a1846564db".toList := by decide
  rw [h1, h2]
  decide

/-- C10: a non-empty caller-supplied `issueId` is preserved verbatim (the
hash is not computed for it, and may disagree with the hash of the canonical
fields); the key is derived from the fields exactly when `issueId` is absent
or the empty string. -/
theorem supplied_issue_id_preserved (i : HealthIssue) (id : List Char) (h : id ≠ []) :
    (HealthIssue.populate_issue_id { i with issueId := some id }).issueId = some id ∧
    (HealthIssue.populate_issue_id { i with issueId := none }).issueId =
      some (HealthIssue.compute_issue_id i) ∧
    (HealthIssue.populate_issue_id { i with issueId := some [] }).issueId =
      some (HealthIssue.compute_issue_id i) ∧
    ∃ j : HealthIssue, (HealthIssue.populate_issue_id j).issueId ≠
      some (HealthIssue.compute_issue_id j) := by
  refine ⟨by simp [HealthIssue.populate_issue_id, h], ?_, ?_, ?_⟩
  · simp [HealthIssue.populate_issue_id]
    rfl
  · simp [HealthIssue.populate_issue_id]
    rfl
  · refine ⟨{ sampleIssue with issueId := some "operator-supplied".toList }, ?_⟩
    decide

/-- C10 witness: a supplied id `"custom-7"` survives construction. -/
theorem supplied_issue_id_preserved_witness :
    "custom-7".toList ≠ [] ∧
    (HealthIssue.populate_issue_id
      { sampleIssue with issueId := some "custom-7".toList }).issueId =
      some "custom-7".toList :=
  ⟨by decide, (supplied_issue_id_preserved sampleIssue "custom-7".toList (by decide)).1⟩

/-! ### Tool dispatch error capture (C8) -/

/-- C8 (amended): with the Kubernetes client installed and the kube config
loadable, `get_pod_diagnostics` always returns a string — and an exception
in the pod read inside the `try` block is captured as
`"Tool Error: <description>"`. (Config-load failures escape: see
`tool_error_counterexample`.) -/
theorem tool_errors_captured (env : K8sEnv) (name nspace : List Char)
    (hclient : env.clientInstalled = true)
    (hcfg : load_kube_config env = .ok ()) :
    (∃ s, get_pod_diagnostics env name nspace = .ok s) ∧
    (∀ e, env.readNamespacedPod name nspace = .error e →
      get_pod_diagnostics env name nspace = .ok ("Tool Error: ".toList ++ e)) := by
  have hv1 : get_v1_api env = .ok () := by
    unfold get_v1_api
    cases hc : env.v1Cached <;> simp [hc, hcfg]
  constructor
  · cases hpod : env.readNamespacedPod name nspace with
    | error e =>
      refine ⟨"Tool Error: ".toList ++ e, ?_⟩
      simp only [get_pod_diagnostics, hclient, hcfg, hv1, hpod]
      rfl
    | ok pod =>
      refine ⟨renderPodReport pod
        (match env.readPodLog name nspace false with
         | .ok l => l
         | .error _ => "(no current logs)".toList)
        (if 0 < pod.restartCount then
           match env.readPodLog name nspace true with
           | .ok l => l
           | .error _ => "(no previous logs)".toList
         else []), ?_⟩
      simp only [get_pod_diagnostics, hclient, hcfg, hv1, hpod]
      rfl
  · intro e hpod
    simp only [get_pod_diagnostics, hclient, hcfg, hv1, hpod]
    rfl

/-- C8 witness: a pod read raising `(404) pod not found` comes back as a
`Tool Error:` observation string. -/
theorem tool_errors_captured_witness :
    get_pod_diagnostics envPodReadFails "web-0".toList "default".toList =
      .ok ("Tool Error: ".toList ++ "(404) pod not found".toList) :=
  (tool_errors_captured envPodReadFails "web-0".toList "default".toList rfl rfl).2
    "(404) pod not found".toList rfl

/-- C8 counterexample: when both in-cluster and local kube-config loading
raise, the exception escapes `get_pod_diagnostics` to its caller (the
`_load_kube_config()` call sits before the `try` block), so the caller does
not receive a string. -/
theorem tool_error_counterexample :
    get_pod_diagnostics envConfigBroken "web-0".toList "default".toList =
      .error "kubeconfig missing".toList := by
  rfl

/-! ### The turn loop (C4, C6, C7, C9) -/

/-- Stream-flush events are all `diagnostic`. -/
theorem complete_not_mem_diag (l : List AgentState) (s : WsStatus) :
    WsEvent.complete s ∉ l.map WsEvent.diagnostic := by
  intro h
  rcases List.mem_map.mp h with ⟨a, _, ha⟩
  exact WsEvent.noConfusion ha

theorem handoffEvent_not_mem_diag (l : List AgentState) :
    WsEvent.handoffEvent ∉ l.map WsEvent.diagnostic := by
  intro h
  rcases List.mem_map.mp h with ⟨a, _, ha⟩
  exact WsEvent.noConfusion ha

/-- The branch structure of one turn: what each exit kind implies about the
emitted events, the operator decision, and the registry. -/
theorem turnStep_shape (o : TurnOracle) (reg : RegistryEntry) :
    ((turnStep o reg).2.2 = .stop .ceiling →
      (turnStep o reg).1.getLast? = some (.complete .in_progress)) ∧
    (∀ inp, (turnStep o reg).2.2 = .next inp →
      (∀ s, WsEvent.complete s ∉ (turnStep o reg).1) ∧
      WsEvent.handoffEvent ∉ (turnStep o reg).1) ∧
    ((turnStep o reg).2.2 = .stop .handoffDone →
      (ask_intervention .handoff_approval o.reply).2 = some approveDecision) ∧
    ((turnStep o reg).2.2 = .stop .protocolError →
      (turnStep o reg).1.getLast? = some .errorEvent ∧
      (turnStep o reg).2.1.sol_thread_id = reg.sol_thread_id) := by
  by_cases hl : historyCeiling ≤ (get_clean_history o.thread).length
  · simp +decide [turnStep, hl, List.getLast?_concat]
  · cases hstate : decisionOf o.thread with
    | none =>
      simp +decide [turnStep, hl, hstate, complete_not_mem_diag, handoffEvent_not_mem_diag]
    | some st =>
      cases hna : st.next_action with
      | continueAction =>
        simp +decide [turnStep, hl, hstate, hna, complete_not_mem_diag,
          handoffEvent_not_mem_diag]
      | handoffToSolutionAgent =>
        cases hrep : o.reply with
        | disconnect =>
          simp +decide [turnStep, ask_intervention, hl, hstate, hna, hrep,
            List.getLast?_concat]
        | malformed =>
          simp +decide [turnStep, ask_intervention, hl, hstate, hna, hrep,
            List.getLast?_concat]
        | msg mtype dec =>
          by_cases hm : mtype = interveneType
          · cases dec with
            | none =>
              simp +decide [turnStep, ask_intervention, hl, hstate, hna, hrep, hm,
                List.getLast?_concat]
            | some d =>
              by_cases hda : d = approveDecision
              · simp +decide [turnStep, ask_intervention, run_solution_and_emit, hl,
                  hstate, hna, hrep, hm, hda, List.getLast?_concat]
              · by_cases hdd : d = denyDecision
                · simp +decide [turnStep, ask_intervention, hl, hstate, hna, hrep, hm,
                    hda, hdd, complete_not_mem_diag, handoffEvent_not_mem_diag,
                    List.getLast?_concat]
                · simp +decide [turnStep, ask_intervention, hl, hstate, hna, hrep, hm,
                    hda, hdd, List.getLast?_concat]
          · simp +decide [turnStep, ask_intervention, hl, hstate, hna, hrep, hm,
              List.getLast?_concat]
      | awaitUserApproval =>
        cases hrep : o.reply with
        | disconnect =>
          simp +decide [turnStep, ask_intervention, hl, hstate, hna, hrep,
            List.getLast?_concat]
        | malformed =>
          simp +decide [turnStep, ask_intervention, hl, hstate, hna, hrep,
            List.getLast?_concat]
        | msg mtype dec =>
          by_cases hm : mtype = interveneType
          · cases dec with
            | none =>
              simp +decide [turnStep, ask_intervention, hl, hstate, hna, hrep, hm,
                List.getLast?_concat]
            | some d =>
              by_cases hda : d = approveDecision
              · simp +decide [turnStep, ask_intervention, hl, hstate, hna, hrep, hm,
                  hda, complete_not_mem_diag, handoffEvent_not_mem_diag]
              · by_cases hdd : d = denyDecision
                · simp +decide [turnStep, ask_intervention, hl, hstate, hna, hrep, hm,
                    hda, hdd, complete_not_mem_diag, handoffEvent_not_mem_diag]
                · by_cases hdh : d = handoffDecision
                  · simp +decide [turnStep, ask_intervention, hl, hstate, hna, hrep,
                      hm, hda, hdd, hdh, complete_not_mem_diag,
                      handoffEvent_not_mem_diag]
                  · simp +decide [turnStep, ask_intervention, hl, hstate, hna, hrep,
                      hm, hda, hdd, hdh, List.getLast?_concat]
          · simp +decide [turnStep, ask_intervention, hl, hstate, hna, hrep, hm,
              List.getLast?_concat]

/-- The loop invariant behind C4: the turn count never exceeds the budget, a
ceiling exit ends on `complete{in_progress}`, and a silent exit (step budget
exhausted) emitted no `complete` event at all. -/
theorem runTurns_spec (env : Nat → TurnOracle) :
    ∀ (remaining idx : Nat) (input : List Char) (reg : RegistryEntry),
      (runTurns env remaining idx input reg).2.2.2 ≤ remaining ∧
      ((runTurns env remaining idx input reg).2.1 = some .ceiling →
        (runTurns env remaining idx input reg).1.getLast? =
          some (.complete .in_progress)) ∧
      ((runTurns env remaining idx input reg).2.1 = none →
        ∀ s, WsEvent.complete s ∉ (runTurns env remaining idx input reg).1) := by
  intro remaining
  induction remaining with
  | zero =>
    intro idx input reg
    refine ⟨by simp [runTurns], by simp [runTurns], ?_⟩
    intro _ s
    simp [runTurns]
  | succ r ih =>
    intro idx input reg
    rcases hts : turnStep (env idx) reg with ⟨evs, reg1, res⟩
    cases res with
    | stop out =>
      refine ⟨by simp [runTurns, hts], ?_, ?_⟩
      · intro h
        simp only [runTurns, hts] at h ⊢
        have hout : out = .ceiling := by simpa using h
        subst hout
        have := (turnStep_shape (env idx) reg).1 (by rw [hts])
        rw [hts] at this
        simpa using this
      · intro h
        simp only [runTurns, hts] at h
        simp at h
    | next inp =>
      have ihr := ih (idx + 1) inp reg1
      rcases hrec : runTurns env r (idx + 1) inp reg1 with ⟨evs2, out2, reg2, n2⟩
      rw [hrec] at ihr
      refine ⟨?_, ?_, ?_⟩
      · simp only [runTurns, hts, hrec]
        have := ihr.1
        simp at this
        omega
      · intro h
        simp only [runTurns, hts, hrec] at h ⊢
        have hlast := ihr.2.1 (by simpa using h)
        simp at hlast
        have hne : evs2 ≠ [] := by
          intro he
          rw [he] at hlast
          simp at hlast
        rw [List.getLast?_append_of_ne_nil _ hne]
        exact hlast
      · intro h s hmem
        simp only [runTurns, hts, hrec] at h hmem
        rcases List.mem_append.mp hmem with hm | hm
        · have := ((turnStep_shape (env idx) reg).2.1 inp (by rw [hts])).1 s
          rw [hts] at this
          exact this hm
        · exact ihr.2.2 (by simpa using h) s hm

/-- C4 (amended): the turn loop performs at most 12 turns; when the
50-message ceiling is observed the session ends by emitting
`complete{in_progress}`; but when the 12-turn budget is exhausted without a
terminal state the `while` loop just falls through — no `complete` event is
emitted at all (contrary to the claim's "either bound" — see
`turn_loop_steps_counterexample`). -/
theorem turn_loop_bounds (env : Nat → TurnOracle) (input : List Char)
    (reg : RegistryEntry) :
    (workflow_loop env input reg).2.2.2 ≤ max_steps ∧
    ((workflow_loop env input reg).2.1 = some .ceiling →
      (workflow_loop env input reg).1.getLast? =
        some (.complete .in_progress)) ∧
    ((workflow_loop env input reg).2.1 = none →
      ∀ s, WsEvent.complete s ∉ (workflow_loop env input reg).1) :=
  runTurns_spec env max_steps 0 input reg

/-- C4 witness: a session whose thread has reached the 50-message ceiling
ends on its first turn with `complete{in_progress}` as the final event. -/
theorem turn_loop_bounds_witness :
    (workflow_loop envCeiling "Investigate.".toList {}).2.1 = some .ceiling ∧
    (workflow_loop envCeiling "Investigate.".toList {}).1.getLast? =
      some (.complete .in_progress) :=
  ⟨rfl, (turn_loop_bounds envCeiling "Investigate.".toList {}).2.1 rfl⟩

/-- C4 counterexample: an engine that never produces a valid Decision runs
exactly 12 turns, the loop exits with the step budget exhausted and the
session not terminal, and *no* event at all (in particular no
`complete{in_progress}`) is emitted — refuting the claim that reaching the
turn bound ends the session with a `complete` event. -/
theorem turn_loop_steps_counterexample :
    (workflow_loop envNoDecision "Investigate.".toList {}).2.2.2 = 12 ∧
    (workflow_loop envNoDecision "Investigate.".toList {}).2.1 = none ∧
    (workflow_loop envNoDecision "Investigate.".toList {}).1 = [] :=
  ⟨rfl, rfl, rfl⟩

/-- C6: at an `AWAIT_HANDOFF_APPROVAL` checkpoint (handoff Decision, ceiling
not reached), a `deny` reply sends the session back to streaming with the
denial prompt — the turn neither performs the handoff nor stops; and the
handoff stage is entered only on a literal `approve` decision. -/
theorem handoff_denied_returns_to_streaming (o : TurnOracle) (reg : RegistryEntry)
    (st : AgentState)
    (hst : decisionOf o.thread = some st)
    (hna : st.next_action = .handoffToSolutionAgent)
    (hlen : (get_clean_history o.thread).length < historyCeiling)
    (hreply : o.reply = .msg interveneType (some denyDecision)) :
    turnStep o reg =
      ((processStream o.chunks).1.map WsEvent.diagnostic ++ [.handoff_approval],
       { reg with diag_thread_id := some diagTid },
       .next "Handoff DENIED. Continue diagnosis.".toList) ∧
    (∀ (o2 : TurnOracle) (reg2 : RegistryEntry),
      (turnStep o2 reg2).2.2 = .stop .handoffDone →
      (ask_intervention .handoff_approval o2.reply).2 = some approveDecision) := by
  constructor
  · have hlen' : ¬ historyCeiling ≤ (get_clean_history o.thread).length :=
      Nat.not_le.mpr hlen
    simp +decide [turnStep, ask_intervention, hst, hna, hreply, hlen']
  · intro o2 reg2 h
    exact (turnStep_shape o2 reg2).2.2.1 h

/-- C6 witness: the handoff Decision followed by `intervene{decision=deny}`
continues streaming with the denial prompt. -/
theorem handoff_denied_returns_to_streaming_witness :
    turnStep oracleHandoffDeny {} =
      ([.handoff_approval], { diag_thread_id := some diagTid },
       .next "Handoff DENIED. Continue diagnosis.".toList) ∧
    (turnStep oracleHandoffApprove {}).2.2 = .stop .handoffDone := by
  constructor
  · have h := (handoff_denied_returns_to_streaming oracleHandoffDeny {} stHandoff
      rfl rfl (by decide) rfl).1
    simpa using h
  · rfl

/-- C7: at an `AWAIT_HANDOFF_APPROVAL` checkpoint, any operator response
other than a literal `approve` or `deny` — a malformed frame, a message that
is not of type `intervene`, a missing decision field, or an unrecognized
decision value — ends the session with an error event as the last event,
and leaves no solution-thread reference in the registry entry. -/
theorem handoff_protocol_error (o : TurnOracle) (reg : RegistryEntry)
    (st : AgentState)
    (hst : decisionOf o.thread = some st)
    (hna : st.next_action = .handoffToSolutionAgent)
    (hlen : (get_clean_history o.thread).length < historyCeiling)
    (hnd : o.reply ≠ .disconnect)
    (hrep : ∀ d, (ask_intervention .handoff_approval o.reply).2 = some d →
      d ≠ approveDecision ∧ d ≠ denyDecision) :
    (turnStep o reg).2.2 = .stop .protocolError ∧
    (turnStep o reg).1.getLast? = some .errorEvent ∧
    (turnStep o reg).2.1.sol_thread_id = reg.sol_thread_id := by
  have hlen' : ¬ historyCeiling ≤ (get_clean_history o.thread).length :=
    Nat.not_le.mpr hlen
  have hPE : (turnStep o reg).2.2 = .stop .protocolError := by
    cases hrepc : o.reply with
    | disconnect => exact absurd hrepc hnd
    | malformed => simp +decide [turnStep, ask_intervention, hst, hna, hlen', hrepc]
    | msg mtype dec =>
      by_cases hm : mtype = interveneType
      · cases dec with
        | none =>
          simp +decide [turnStep, ask_intervention, hst, hna, hlen', hrepc, hm]
        | some d =>
          have hd := hrep d (by simp [ask_intervention, hrepc, hm])
          simp +decide [turnStep, ask_intervention, hst, hna, hlen', hrepc, hm,
            hd.1, hd.2]
      · simp +decide [turnStep, ask_intervention, hst, hna, hlen', hrepc, hm]
  exact ⟨hPE, ((turnStep_shape o reg).2.2.2 hPE).1, ((turnStep_shape o reg).2.2.2 hPE).2⟩

/-- C7 witness: `intervene{decision=bogus}` at the handoff checkpoint ends
the turn with a protocol error, the last event is the error event, and the
(empty) registry entry still has no solution thread. -/
theorem handoff_protocol_error_witness :
    (turnStep oracleHandoffBogus {}).2.2 = .stop .protocolError ∧
    (turnStep oracleHandoffBogus {}).1.getLast? = some .errorEvent ∧
    (turnStep oracleHandoffBogus {}).2.1.sol_thread_id = none :=
  handoff_protocol_error oracleHandoffBogus {} stHandoff rfl rfl (by decide)
    (by simp [oracleHandoffBogus])
    (fun d hd => by
      simp [ask_intervention, oracleHandoffBogus] at hd
      subst hd
      exact ⟨by decide, by decide⟩)

/-- C9: the Turn Controller's history view excludes `user`-role messages
(the `user_message_included=False` default): no cleaned entry has the user
role, prepending a user message to the thread changes neither the cleaned
history nor the whole turn's behaviour (so the 50-message ceiling counts
non-user messages only), and the governing Decision is the strict JSON
validation of the newest non-user message — not of the newest message
overall. -/
theorem clean_history_excludes_user :
    (∀ (msgs : List RawMessage) (p : List Char × List Char),
      p ∈ get_clean_history msgs → p.1 ≠ "user".toList) ∧
    (∀ (u : RawMessage) (msgs : List RawMessage), u.role = "user".toList →
      get_clean_history (u :: msgs) = get_clean_history msgs) ∧
    (∀ (o : TurnOracle) (u : RawMessage) (reg : RegistryEntry),
      u.role = "user".toList →
      turnStep { o with thread := u :: o.thread } reg = turnStep o reg) ∧
    (∀ msgs : List RawMessage,
      decisionOf msgs = AgentState.model_validate_json
        ((((msgs.filter (fun m => !(m.role = "user".toList))).head?).map
          extractText).getD [])) := by
  have hcons : ∀ (u : RawMessage) (msgs : List RawMessage), u.role = "user".toList →
      get_clean_history (u :: msgs) = get_clean_history msgs := by
    intro u msgs hu
    simp [get_clean_history, hu]
  refine ⟨?_, hcons, ?_, ?_⟩
  · intro msgs p hp
    simp only [get_clean_history, List.mem_reverse] at hp
    rcases List.mem_map.mp hp with ⟨m, hm, rfl⟩
    have := (List.mem_filter.mp hm).2
    simpa using this
  · intro o u reg hu
    have hch := hcons u o.thread hu
    simp only [turnStep, decisionOf, lastCleanText]
    rw [hch]
  · intro msgs
    simp only [decisionOf, lastCleanText, get_clean_history, Bool.false_or,
      List.getLast?_reverse, List.head?_map]
    cases hh : (msgs.filter (fun m => !(m.role = "user".toList))).head? with
    | none => simp [hh]
    | some m => simp [hh]

/-- C9 witness: prepending a user message to a one-message thread leaves the
cleaned history, and the whole turn, unchanged. -/
theorem clean_history_excludes_user_witness :
    get_clean_history (userMsg :: [chatterMsg]) = get_clean_history [chatterMsg] ∧
    turnStep { oracleHandoffDeny with thread := userMsg :: oracleHandoffDeny.thread } {} =
      turnStep oracleHandoffDeny {} :=
  ⟨clean_history_excludes_user.2.1 userMsg [chatterMsg] rfl,
   clean_history_excludes_user.2.2.1 oracleHandoffDeny userMsg {} rfl⟩

/-! ### The Streaming Decision Assembler (C1, C2, C3)

The development below establishes how the buffer loop behaves on appended
input. Progress lemmas first (every successful scan consumes at least one
character), then stability of successful scans under appending input, and
from those the confluence of chunked and whole-stream processing. -/

theorem skipWs_length_le (s : List Char) : (skipWs s).length ≤ s.length := by
  induction s with
  | nil => simp [skipWs]
  | cons c r ih =>
    by_cases h : isWsChar c <;> simp [skipWs, h] <;> omega

theorem takeDigits_snd_length_le (s : List Char) :
    (takeDigits s).2.length ≤ s.length := by
  induction s with
  | nil => simp [takeDigits]
  | cons c r ih =>
    by_cases h : isDigitChar c <;> simp [takeDigits, h] <;> omega

theorem parseStrAux_nil (f : Nat) (acc : List Char) :
    parseStrAux f acc [] = none := by
  cases f <;> rfl

theorem parseStrAux_length : ∀ (f : Nat) (acc s cs r : List Char),
    parseStrAux f acc s = some (cs, r) → r.length < s.length
  | 0, acc, s, cs, r, h => by simp [parseStrAux] at h
  | f + 1, acc, [], cs, r, h => by simp [parseStrAux] at h
  | f + 1, acc, c :: rest, cs, r, h => by
    simp only [parseStrAux] at h
    repeat' split at h
    all_goals try (simp only [Option.some.injEq, Prod.mk.injEq] at h
                   obtain ⟨rfl, rfl⟩ := h
                   simp +arith)
    all_goals try (rw [parseStrAux_nil] at h; exact Option.noConfusion h)
    all_goals try exact Option.noConfusion h
    all_goals (have hlt := parseStrAux_length f _ _ _ _ h
               simp only [List.length_cons, List.length_nil] at hlt ⊢
               omega)

theorem parseIntPart_length (s ip r : List Char)
    (h : parseIntPart s = some (ip, r)) : r.length < s.length := by
  unfold parseIntPart at h
  split at h
  · exact Option.noConfusion h
  · next c0 r0 =>
    by_cases hz : c0 = '0'
    · simp only [hz, if_true, Option.some.injEq, Prod.mk.injEq] at h
      obtain ⟨rfl, rfl⟩ := h
      simp
    · simp only [hz, if_false] at h
      by_cases hd : isDigitChar c0
      · simp only [hd, if_true, Option.some.injEq, Prod.mk.injEq] at h
        obtain ⟨rfl, rfl⟩ := h
        have := takeDigits_snd_length_le r0
        simp +arith
        omega
      · simp [hd] at h

theorem parseFracPart_snd_length_le (s : List Char) :
    (parseFracPart s).2.length ≤ s.length := by
  unfold parseFracPart
  split
  · next c0 c r =>
    by_cases hd : c0 = '.' ∧ isDigitChar c
    · have := takeDigits_snd_length_le r
      simp +arith [hd]
      omega
    · simp [hd]
  · simp

theorem parseExpPart_snd_length_le (s : List Char) :
    (parseExpPart s).2.length ≤ s.length := by
  unfold parseExpPart
  split
  · next e rest =>
    by_cases he : e = 'e' ∨ e = 'E'
    · simp only [if_pos he]
      split
      · next sgn rest2 =>
        by_cases hs : sgn = '+' ∨ sgn = '-'
        · simp only [if_pos hs]
          split
          · next c r =>
            by_cases hd : isDigitChar c
            · have := takeDigits_snd_length_le r
              simp +arith [hd]
              omega
            · simp [hd]
          · simp
        · simp only [if_neg hs]
          by_cases hd : isDigitChar sgn
          · have := takeDigits_snd_length_le rest2
            simp +arith [hd]
            omega
          · simp [hd]
      · simp
    · simp [he]
  · simp

theorem parseNumBody_length (s lex r : List Char)
    (h : parseNumBody s = some (lex, r)) : r.length < s.length := by
  unfold parseNumBody at h
  split at h
  · exact Option.noConfusion h
  · next ip s2 heq =>
    simp only [Option.some.injEq, Prod.mk.injEq] at h
    obtain ⟨rfl, rfl⟩ := h
    have h1 := parseIntPart_length s ip s2 heq
    have h2 := parseFracPart_snd_length_le s2
    have h3 := parseExpPart_snd_length_le (parseFracPart s2).2
    omega

theorem parseNum_length (s lex r : List Char)
    (h : parseNum s = some (lex, r)) : r.length < s.length := by
  unfold parseNum at h
  split at h
  · next r0 =>
    split at h
    · exact Option.noConfusion h
    · next lex0 s4 heq =>
      simp only [Option.some.injEq, Prod.mk.injEq] at h
      obtain ⟨rfl, rfl⟩ := h
      have := parseNumBody_length r0 lex0 s4 heq
      simp +arith
      omega
  · have := parseNumBody_length s lex r h
    omega

theorem skipWs_cons_length {x y : List Char} {c : Char} (h : skipWs x = c :: y) :
    y.length < x.length := by
  have := skipWs_length_le x
  rw [h] at this
  simp at this
  omega

theorem expectLit_length : ∀ (lit s r : List Char),
    expectLit lit s = some r → r.length + lit.length = s.length
  | [], s, r, h => by
    simp [expectLit] at h
    subst h
    simp
  | c :: cs, s, r, h => by
    unfold expectLit at h
    split at h
    · next c2 s2 =>
      split at h
      · have := expectLit_length cs s2 r h
        try simp +arith
        omega
      · exact Option.noConfusion h
    · exact Option.noConfusion h

set_option maxHeartbeats 4000000 in
mutual
theorem parseValue_length : ∀ (f : Nat) (s : List Char) (v : JVal) (r : List Char),
    parseValue f s = some (v, r) → r.length < s.length
  | 0, s, v, r, h => Option.noConfusion h
  | f + 1, [], v, r, h => Option.noConfusion h
  | f + 1, c :: rr, v, r, h => by
    rw [parseValue] at h
    by_cases h1 : c = '"'
    · simp only [if_pos h1] at h
      split at h
      · next cs1 r1 heq =>
        simp only [Option.some.injEq, Prod.mk.injEq] at h
        obtain ⟨rfl, rfl⟩ := h
        have := parseStrAux_length f [] rr cs1 r1 heq
        try simp +arith
        omega
      · exact Option.noConfusion h
    · by_cases h2 : c = '{'
      · simp only [if_neg h1, if_pos h2] at h
        split at h
        · next r2 hsk =>
          simp only [Option.some.injEq, Prod.mk.injEq] at h
          obtain ⟨rfl, rfl⟩ := h
          have := skipWs_cons_length hsk
          try simp +arith
          omega
        · next r1 hne =>
          split at h
          · next ms2 r2 heq2 =>
            simp only [Option.some.injEq, Prod.mk.injEq] at h
            obtain ⟨rfl, rfl⟩ := h
            have hlt := parseMembers_length f (skipWs rr) ms2 r2 heq2
            have hle := skipWs_length_le rr
            try simp +arith
            omega
          · exact Option.noConfusion h
      · by_cases h3 : c = '['
        · simp only [if_neg h1, if_neg h2, if_pos h3] at h
          split at h
          · next r2 hsk =>
            simp only [Option.some.injEq, Prod.mk.injEq] at h
            obtain ⟨rfl, rfl⟩ := h
            have := skipWs_cons_length hsk
            try simp +arith
            omega
          · next r1 hne =>
            split at h
            · next es2 r2 heq2 =>
              simp only [Option.some.injEq, Prod.mk.injEq] at h
              obtain ⟨rfl, rfl⟩ := h
              have hlt := parseElems_length f (skipWs rr) es2 r2 heq2
              have hle := skipWs_length_le rr
              try simp +arith
              omega
            · exact Option.noConfusion h
        · by_cases h4 : c = 'n'
          · simp only [if_neg h1, if_neg h2, if_neg h3, if_pos h4] at h
            cases hexp : expectLit "ull".toList rr with
            | none => rw [hexp] at h; exact Option.noConfusion h
            | some r2 =>
              rw [hexp] at h
              simp only [Option.map_some', Option.some.injEq, Prod.mk.injEq] at h
              obtain ⟨rfl, rfl⟩ := h
              have := expectLit_length _ _ _ hexp
              try simp +arith at this ⊢
              omega
          · by_cases h5 : c = 't'
            · simp only [if_neg h1, if_neg h2, if_neg h3, if_neg h4, if_pos h5] at h
              cases hexp : expectLit "rue".toList rr with
              | none => rw [hexp] at h; exact Option.noConfusion h
              | some r2 =>
                rw [hexp] at h
                simp only [Option.map_some', Option.some.injEq, Prod.mk.injEq] at h
                obtain ⟨rfl, rfl⟩ := h
                have := expectLit_length _ _ _ hexp
                try simp +arith at this ⊢
                omega
            · by_cases h6 : c = 'f'
              · simp only [if_neg h1, if_neg h2, if_neg h3, if_neg h4, if_neg h5,
                  if_pos h6] at h
                cases hexp : expectLit "alse".toList rr with
                | none => rw [hexp] at h; exact Option.noConfusion h
                | some r2 =>
                  rw [hexp] at h
                  simp only [Option.map_some', Option.some.injEq, Prod.mk.injEq] at h
                  obtain ⟨rfl, rfl⟩ := h
                  have := expectLit_length _ _ _ hexp
                  try simp +arith at this ⊢
                  omega
              · simp only [if_neg h1, if_neg h2, if_neg h3, if_neg h4, if_neg h5,
                  if_neg h6] at h
                split at h
                · next lex r1 heq =>
                  simp only [Option.some.injEq, Prod.mk.injEq] at h
                  obtain ⟨rfl, rfl⟩ := h
                  exact parseNum_length _ _ _ heq
                · next hnum =>
                  by_cases h7 : c = 'N'
                  · simp only [if_pos h7] at h
                    cases hexp : expectLit "aN".toList rr with
                    | none => rw [hexp] at h; exact Option.noConfusion h
                    | some r2 =>
                      rw [hexp] at h
                      simp only [Option.map_some', Option.some.injEq, Prod.mk.injEq] at h
                      obtain ⟨rfl, rfl⟩ := h
                      have := expectLit_length _ _ _ hexp
                      try simp +arith at this ⊢
                      omega
                  · by_cases h8 : c = 'I'
                    · simp only [if_neg h7, if_pos h8] at h
                      cases hexp : expectLit "nfinity".toList rr with
                      | none => rw [hexp] at h; exact Option.noConfusion h
                      | some r2 =>
                        rw [hexp] at h
                        simp only [Option.map_some', Option.some.injEq, Prod.mk.injEq] at h
                        obtain ⟨rfl, rfl⟩ := h
                        have := expectLit_length _ _ _ hexp
                        try simp +arith at this ⊢
                        omega
                    · by_cases h9 : c = '-'
                      · simp only [if_neg h7, if_neg h8, if_pos h9] at h
                        cases hexp : expectLit "Infinity".toList rr with
                        | none => rw [hexp] at h; exact Option.noConfusion h
                        | some r2 =>
                          rw [hexp] at h
                          simp only [Option.map_some', Option.some.injEq, Prod.mk.injEq] at h
                          obtain ⟨rfl, rfl⟩ := h
                          have := expectLit_length _ _ _ hexp
                          try simp +arith at this ⊢
                          omega
                      · simp only [if_neg h7, if_neg h8, if_neg h9] at h
                        exact Option.noConfusion h

theorem parseMembers_length : ∀ (f : Nat) (s : List Char) (ms : List (List Char × JVal)) (r : List Char),
    parseMembers f s = some (ms, r) → r.length < s.length
  | 0, s, ms, r, h => Option.noConfusion h
  | f + 1, [], ms, r, h => Option.noConfusion h
  | f + 1, c :: r0, ms, r, h => by
    rw [parseMembers] at h
    by_cases hq : c = '"'
    · simp only [if_pos hq] at h
      split at h
      · exact Option.noConfusion h
      · next k r1 hkey =>
        have hk := parseStrAux_length f [] r0 k r1 hkey
        split at h
        · next r2 hcolon =>
          have hc := skipWs_cons_length hcolon
          split at h
          · exact Option.noConfusion h
          · next v0 r3 hval =>
            have hv := parseValue_length f (skipWs r2) v0 r3 hval
            have hv2 := skipWs_length_le r2
            split at h
            · next r4 hcomma =>
              have hm := skipWs_cons_length hcomma
              split at h
              · next ms0 r5 hrec =>
                simp only [Option.some.injEq, Prod.mk.injEq] at h
                obtain ⟨rfl, rfl⟩ := h
                have hr := parseMembers_length f (skipWs r4) ms0 r5 hrec
                have hr2 := skipWs_length_le r4
                try simp +arith
                omega
              · exact Option.noConfusion h
            · next r4 hbrace =>
              have hm := skipWs_cons_length hbrace
              simp only [Option.some.injEq, Prod.mk.injEq] at h
              obtain ⟨rfl, rfl⟩ := h
              try simp +arith
              omega
            · exact Option.noConfusion h
        · exact Option.noConfusion h
    · simp only [if_neg hq] at h
      exact Option.noConfusion h

theorem parseElems_length : ∀ (f : Nat) (s : List Char) (es : List JVal) (r : List Char),
    parseElems f s = some (es, r) → r.length < s.length
  | 0, s, es, r, h => Option.noConfusion h
  | f + 1, s, es, r, h => by
    rw [parseElems] at h
    split at h
    · exact Option.noConfusion h
    · next v0 r1 hval =>
      have hv := parseValue_length f s v0 r1 hval
      split at h
      · next r2 hcomma =>
        have hc := skipWs_cons_length hcomma
        split at h
        · next es0 r3 hrec =>
          simp only [Option.some.injEq, Prod.mk.injEq] at h
          obtain ⟨rfl, rfl⟩ := h
          have hr := parseElems_length f (skipWs r2) es0 r3 hrec
          have hr2 := skipWs_length_le r2
          omega
        · exact Option.noConfusion h
      · next r2 hbrack =>
        have hc := skipWs_cons_length hbrack
        simp only [Option.some.injEq, Prod.mk.injEq] at h
        obtain ⟨rfl, rfl⟩ := h
        omega
      · exact Option.noConfusion h
end


theorem findBrace_lt_length : ∀ (s : List Char) (i : Nat), findBrace s = some i → i < s.length := by
  intro s
  induction s with
  | nil => intro i h; simp [findBrace] at h
  | cons c r ih =>
    intro i h
    by_cases hc : c = '{'
    · simp [findBrace, hc] at h
      simp
      omega
    · simp only [findBrace, if_neg hc] at h
      cases hf : findBrace r with
      | none => rw [hf] at h; simp at h
      | some j =>
        rw [hf] at h
        simp at h
        have := ih j hf
        simp
        omega

theorem findBrace_drop : ∀ (s : List Char) (i : Nat), findBrace s = some i → ∃ r, s.drop i = '{' :: r := by
  intro s
  induction s with
  | nil => intro i h; simp [findBrace] at h
  | cons c r ih =>
    intro i h
    by_cases hc : c = '{'
    · simp [findBrace, hc] at h
      subst h
      exact ⟨r, by simp [hc]⟩
    · simp only [findBrace, if_neg hc] at h
      cases hf : findBrace r with
      | none => rw [hf] at h; simp at h
      | some j =>
        rw [hf] at h
        simp at h
        subst h
        simpa using ih j hf

theorem findBrace_append_some : ∀ (a b : List Char) (i : Nat),
    findBrace a = some i → findBrace (a ++ b) = some i := by
  intro a
  induction a with
  | nil => intro b i h; simp [findBrace] at h
  | cons c r ih =>
    intro b i h
    by_cases hc : c = '{'
    · simp [findBrace, hc] at h ⊢
      exact h
    · simp only [findBrace, if_neg hc] at h
      rw [List.cons_append]
      simp only [findBrace, if_neg hc]
      cases hf : findBrace r with
      | none => rw [hf] at h; simp at h
      | some j =>
        rw [hf] at h
        rw [ih b j hf]
        simpa using h

theorem findBrace_eq_none : ∀ (a : List Char), (∀ c ∈ a, ¬(c = '{')) → findBrace a = none := by
  intro a
  induction a with
  | nil => intro _; rfl
  | cons c r ih =>
    intro h
    have hc := h c (by simp)
    simp only [findBrace, if_neg hc]
    rw [ih (fun x hx => h x (by simp [hx]))]
    rfl

theorem findBrace_front : ∀ (front : List Char) (r : List Char),
    (∀ c ∈ front, ¬(c = '{')) → findBrace (front ++ '{' :: r) = some front.length := by
  intro front
  induction front with
  | nil => intro r _; simp [findBrace]
  | cons c f ih =>
    intro r h
    have hc := h c (by simp)
    rw [List.cons_append]
    simp only [findBrace, if_neg hc]
    rw [ih r (fun x hx => h x (by simp [hx]))]
    simp

theorem drainAux_fuel_irrel : ∀ (n : Nat) (buf : List Char), buf.length ≤ n →
    ∀ f1 f2, buf.length < f1 → buf.length < f2 → drainAux f1 buf = drainAux f2 buf := by
  intro n
  induction n with
  | zero =>
    intro buf hbuf f1 f2 h1 h2
    have hb : buf = [] := List.length_eq_zero.mp (by omega)
    subst hb
    cases f1 with
    | zero => omega
    | succ k1 =>
      cases f2 with
      | zero => omega
      | succ k2 => rfl
  | succ n ih =>
    intro buf hbuf f1 f2 h1 h2
    cases f1 with
    | zero => omega
    | succ k1 =>
      cases f2 with
      | zero => omega
      | succ k2 =>
        rw [drainAux, drainAux]
        cases hf : findBrace buf with
        | none => rfl
        | some i =>
          simp only
          cases hd : rawDecode (buf.drop i) with
          | none => rfl
          | some pr =>
            obtain ⟨v, rest⟩ := pr
            simp only
            cases hv : AgentState.model_validate v with
            | some st =>
              have hrest : rest.length < (buf.drop i).length :=
                parseValue_length _ _ _ _ hd
              have hdl : (buf.drop i).length ≤ buf.length := by
                simp [List.length_drop]
              have heq := ih rest (by omega) k1 k2 (by omega) (by omega)
              rw [heq]
            | none =>
              have hi := findBrace_lt_length buf i hf
              have hdl : (buf.drop (i + 1)).length = buf.length - (i + 1) := by
                simp [List.length_drop]
              exact ih (buf.drop (i + 1)) (by omega) k1 k2 (by omega) (by omega)

theorem drainAux_eq_drain (f : Nat) (buf : List Char) (h : buf.length < f) :
    drainAux f buf = drain buf :=
  drainAux_fuel_irrel (max buf.length buf.length) buf (by omega) f (buf.length + 1) h
    (by omega)


theorem parseMembers_non_quote (f : Nat) (c : Char) (r : List Char) (h : ¬(c = '"')) :
    parseMembers f (c :: r) = none := by
  cases f with
  | zero => rfl
  | succ k =>
    rw [parseMembers]
    simp [h]

theorem parseValue_stuck (f : Nat) (c2 : Char) (r : List Char)
    (hw : isWsChar c2 = false) (hq : ¬(c2 = '"')) (hb : ¬(c2 = '}')) :
    parseValue f ('{' :: c2 :: r) = none := by
  cases f with
  | zero => rfl
  | succ k =>
    rw [parseValue]
    have hsk : skipWs (c2 :: r) = c2 :: r := by simp [skipWs, hw]
    simp +decide only [if_true, if_false, hsk]
    split
    · next r2 heq =>
      exact absurd heq (by intro hh; injection hh with h1 h2; exact hb h1)
    · rw [parseMembers_non_quote k c2 r hq]

theorem drain_stuck (buf : List Char) (i : Nat) (c2 : Char) (r : List Char)
    (hf : findBrace buf = some i) (hd : buf.drop i = '{' :: c2 :: r)
    (hw : isWsChar c2 = false) (hq : ¬(c2 = '"')) (hb : ¬(c2 = '}')) :
    drain buf = ([], buf) := by
  have hnone : rawDecode (buf.drop i) = none := by
    rw [hd]
    exact parseValue_stuck _ _ _ hw hq hb
  unfold drain
  rw [drainAux]
  simp only [hf, hnone]

/-- C1 (amended): the assembler never advances past a `{` that fails JSON
decoding — `json.JSONDecodeError` is treated as "wait for more input"
whether the text is truncated or irreparably malformed. When the first
unconsumed `{` is followed by a character that is not whitespace, `"` or
`}` (so no extension can ever make it decode), every subsequent fragment is
appended to the buffer but no event is ever emitted and the cursor never
moves: a valid Decision later in the stream is *not* emitted
(`forward_progress_counterexample`). -/
theorem malformed_brace_blocks : ∀ (chunks : List (List Char)) (buf : List Char)
    (i : Nat) (c2 : Char) (r : List Char),
    findBrace buf = some i → buf.drop i = '{' :: c2 :: r →
    isWsChar c2 = false → ¬(c2 = '"') → ¬(c2 = '}') →
    feedChunks buf chunks = ([], buf ++ chunks.flatten) := by
  intro chunks
  induction chunks with
  | nil =>
    intro buf i c2 r hf hd hw hq hb
    simp [feedChunks]
  | cons ch chs ih =>
    intro buf i c2 r hf hd hw hq hb
    have hf2 : findBrace (buf ++ ch) = some i := findBrace_append_some buf ch i hf
    have hi : i ≤ buf.length := le_of_lt (findBrace_lt_length buf i hf)
    have hd2 : (buf ++ ch).drop i = '{' :: c2 :: (r ++ ch) := by
      rw [List.drop_append_of_le_length hi, hd]
      simp
    have hdr : drain (buf ++ ch) = ([], buf ++ ch) :=
      drain_stuck (buf ++ ch) i c2 (r ++ ch) hf2 hd2 hw hq hb
    have hrec := ih (buf ++ ch) i c2 (r ++ ch) hf2 hd2 hw hq hb
    simp only [feedChunks, hdr, hrec]
    simp



/-- C3 (amended): when the object decoded at the first `\x7b` is well-formed
JSON but fails Decision validation, the assembler emits nothing for it and
advances the cursor by exactly *one* character past the `\x7b` — not past
the decoded span — so objects nested inside the failed span are rescanned
(and possibly emitted: see `schema_invalid_span_counterexample`). -/
theorem schema_invalid_skips_one (buf : List Char) (i : Nat) (v : JVal)
    (rest : List Char)
    (hf : findBrace buf = some i)
    (hd : rawDecode (buf.drop i) = some (v, rest))
    (hv : AgentState.model_validate v = none) :
    drain buf = drain (buf.drop (i + 1)) := by
  have hi := findBrace_lt_length buf i hf
  show drainAux (buf.length + 1) buf = drain (buf.drop (i + 1))
  rw [drainAux]
  simp only [hf, hd, hv]
  exact drainAux_eq_drain _ _ (by simp [List.length_drop]; omega)

/-- C3 witness: on the schema-invalid wrapper object the whole drain equals
the drain of the buffer one character past its `\x7b`, which emits the
nested valid Decision. -/
theorem schema_invalid_skips_one_witness :
    drain nestedText = drain (nestedText.drop 1) ∧
    (drain nestedText).1 = [decisionState] :=
  ⟨schema_invalid_skips_one nestedText 0 nestedJVal [] rfl rfl rfl, rfl⟩

/-- C3 counterexample: the claimed behaviour (advance past the entire
decoded span, as `drainSpec` implements) would emit nothing for
`nestedText` and consume all of it; the code instead emits the Decision
nested *inside* the invalid object's span and stops at the stray `\x7d`. -/
theorem schema_invalid_span_counterexample :
    (drain nestedText).1 = [decisionState] ∧
    (drain nestedText).2 = ['\x7d'] ∧
    (drainSpec nestedText).1 = [] ∧
    (drainSpec nestedText).2 = [] :=
  ⟨rfl, rfl, rfl, rfl⟩

/-- C1 witness: the buffer `\x7bnot json\x7d` blocks: feeding a complete,
schema-valid Decision afterwards emits nothing and leaves everything in the
buffer. -/
theorem malformed_brace_blocks_witness :
    feedChunks badBrace [decisionText] = ([], badBrace ++ decisionText) :=
  malformed_brace_blocks [decisionText] badBrace 0 'n' "ot json\x7d".toList
    rfl rfl (by decide) (by decide) (by decide)

/-- C1 counterexample: with `\x7bnot json\x7d` ahead of a complete,
schema-valid Decision, the assembler emits nothing — whether the stream
arrives as one fragment or two — even though the Decision alone would be
emitted; the claimed advance-past-the-bad-`\x7b` retry does not exist. -/
theorem forward_progress_counterexample :
    (processStream [badBrace ++ decisionText]).1 = [] ∧
    (processStream [badBrace, decisionText]).1 = [] ∧
    (drain decisionText).1 = [decisionState] :=
  ⟨rfl, rfl, rfl⟩

/-! ### Chunk-split invariance of the assembler (C2) -/


theorem skipWs_append_cons (x y t : List Char) (c : Char) (h : skipWs x = c :: y) :
    skipWs (x ++ t) = c :: y ++ t := by
  induction x with
  | nil => simp [skipWs] at h
  | cons a r ih =>
    rw [List.cons_append]
    unfold skipWs at h ⊢
    by_cases hw : isWsChar a
    · simp only [hw, if_true] at h ⊢
      exact ih h
    · simp only [hw, if_false] at h ⊢
      simp_all

theorem takeDigits_append_cons (x y t : List Char) (ds : List Char) (c : Char)
    (h : takeDigits x = (ds, c :: y)) : takeDigits (x ++ t) = (ds, c :: y ++ t) := by
  induction x generalizing ds with
  | nil => simp [takeDigits] at h
  | cons a r ih =>
    rw [List.cons_append]
    unfold takeDigits at h ⊢
    by_cases hd : isDigitChar a
    · simp only [hd, if_true] at h ⊢
      rcases hr : takeDigits r with ⟨ds0, r0⟩
      rw [hr] at h
      simp only [Prod.mk.injEq] at h
      obtain ⟨rfl, h2⟩ := h
      rw [ih ds0 (by rw [hr, h2])]
    · simp only [hd, if_false, Prod.mk.injEq] at h ⊢
      obtain ⟨rfl, rfl, rfl⟩ := h
      simp [List.append_eq]

theorem expectLit_append : ∀ (lit x y t : List Char),
    expectLit lit x = some y → expectLit lit (x ++ t) = some (y ++ t)
  | [], x, y, t, h => by
    simp [expectLit] at h ⊢
    simp [h]
  | l :: ls, [], y, t, h => by
    simp [expectLit] at h
  | l :: ls, a :: r, y, t, h => by
    rw [List.cons_append]
    unfold expectLit at h ⊢
    by_cases hl : a = l
    · simp only [hl, if_true] at h ⊢
      exact expectLit_append ls r y t h
    · simp only [hl, if_false] at h
      exact Option.noConfusion h

theorem parseStrAux_single (f : Nat) (acc : List Char) (e : Char)
    (he : ¬ e = Char.ofNat 34) : parseStrAux f acc [e] = none := by
  cases f with
  | zero => rfl
  | succ f =>
    have he2 : ¬ e = Char.ofNat 34 := he
    simp only [parseStrAux, show ('"' : Char) = Char.ofNat 34 from rfl, he2, if_false]
    by_cases hb : e = '\\'
    · simp [hb]
    · simp only [hb, if_false]
      split
      · rfl
      · exact parseStrAux_nil f (e :: acc)

theorem parseStrAux_append : ∀ (f : Nat) (acc s cs r t : List Char),
    parseStrAux f acc s = some (cs, r) → parseStrAux f acc (s ++ t) = some (cs, r ++ t)
  | 0, acc, s, cs, r, t, h => by simp [parseStrAux] at h
  | f + 1, acc, [], cs, r, t, h => by simp [parseStrAux] at h
  | f + 1, acc, c :: rest, cs, r, t, h => by
    rw [List.cons_append]
    simp only [parseStrAux] at h
    repeat' split at h
    all_goals try exact Option.noConfusion h
    all_goals try (rw [parseStrAux_nil] at h; exact Option.noConfusion h)
    all_goals try (have hIH := parseStrAux_append f _ _ _ _ t h
                   simp only [List.cons_append] at hIH ⊢
                   simp_all +decide [parseStrAux]
                   done)
    all_goals try (rw [parseStrAux_single] at h
                   · exact Option.noConfusion h
                   · simp_all +decide)
    all_goals (simp only [Option.some.injEq, Prod.mk.injEq] at h
               obtain ⟨rfl, rfl⟩ := h
               simp_all [parseStrAux, List.cons_append])

theorem parseIntPart_append (x : List Char) (ip : List Char) (c2 : Char)
    (y2 t : List Char) (h : parseIntPart x = some (ip, c2 :: y2)) :
    parseIntPart (x ++ t) = some (ip, c2 :: y2 ++ t) := by
  rcases x with _ | ⟨c, r⟩
  · simp [parseIntPart] at h
  · rw [List.cons_append]
    unfold parseIntPart at h ⊢
    by_cases hz : c = '0'
    · simp only [hz, if_true, Option.some.injEq, Prod.mk.injEq] at h ⊢
      obtain ⟨rfl, h2⟩ := h
      simp [h2]
    · simp only [hz, if_false] at h ⊢
      by_cases hd : isDigitChar c
      · simp only [hd, if_true, Option.some.injEq, Prod.mk.injEq] at h ⊢
        obtain ⟨rfl, h2⟩ := h
        have happ := takeDigits_append_cons r y2 t (takeDigits r).1 c2 (by rw [← h2])
        rw [happ]
        exact ⟨rfl, rfl⟩
      · simp [hd] at h

theorem parseIntPart_cons_none (c : Char) (r t : List Char)
    (hz : ¬ c = '0') (hd : isDigitChar c = false) :
    parseIntPart (c :: r ++ t) = none := by
  rw [List.cons_append]
  simp [parseIntPart, hz, hd]

theorem parseFracPart_append (x y fp t : List Char)
    (h : parseFracPart x = (fp, y)) (hy : y ≠ []) (hne : x ≠ ['.']) :
    parseFracPart (x ++ t) = (fp, y ++ t) := by
  rcases x with _ | ⟨c0, x1⟩
  · unfold parseFracPart at h
    simp at h
    obtain ⟨rfl, rfl⟩ := h
    exact absurd rfl hy
  · rcases x1 with _ | ⟨c1, x2⟩
    · have hc0 : ¬ c0 = '.' := by
        intro hh; exact hne (by rw [hh])
      unfold parseFracPart at h
      simp at h
      obtain ⟨rfl, rfl⟩ := h
      rcases t with _ | ⟨t0, t1⟩
      · simp [parseFracPart]
      · simp only [List.cons_append, List.nil_append]
        unfold parseFracPart
        simp [hc0]
    · rw [List.cons_append, List.cons_append]
      unfold parseFracPart at h ⊢
      by_cases hc : c0 = '.' ∧ isDigitChar c1
      · rcases ht : takeDigits x2 with ⟨ds0, r0⟩
        simp only [if_pos hc, ht, Prod.mk.injEq] at h ⊢
        obtain ⟨rfl, h2⟩ := h
        subst h2
        rcases r0 with _ | ⟨rc, rr⟩
        · exact absurd rfl hy
        · have happ := takeDigits_append_cons x2 rr t ds0 rc ht
          rw [happ]
          exact ⟨rfl, rfl⟩
      · simp only [if_neg hc, Prod.mk.injEq] at h ⊢
        obtain ⟨rfl, rfl⟩ := h
        simp [List.cons_append]

theorem parseExpPart_append (x y ep t : List Char)
    (h : parseExpPart x = (ep, y)) (hs : SafeRest y) :
    parseExpPart (x ++ t) = (ep, y ++ t) := by
  rcases x with _ | ⟨e, rest⟩
  · unfold parseExpPart at h
    simp at h
    obtain ⟨rfl, rfl⟩ := h
    simp [SafeRest] at hs
  · rw [List.cons_append]
    unfold parseExpPart at h ⊢
    by_cases he : e = 'e' ∨ e = 'E'
    · simp only [if_pos he] at h ⊢
      rcases rest with _ | ⟨sgn, rest2⟩
      · simp at h
        obtain ⟨rfl, rfl⟩ := h
        rcases he with rfl | rfl <;> simp [SafeRest, isNumCont] at hs
      · rw [List.cons_append]
        by_cases hsg : sgn = '+' ∨ sgn = '-'
        · simp only [if_pos hsg] at h ⊢
          rcases rest2 with _ | ⟨c, r⟩
          · simp at h
            obtain ⟨rfl, rfl⟩ := h
            rcases he with rfl | rfl <;> simp [SafeRest, isNumCont] at hs
          · rw [List.cons_append]
            by_cases hd : isDigitChar c
            · rcases ht : takeDigits r with ⟨ds0, r0⟩
              simp only [hd, if_true, ht, Prod.mk.injEq] at h ⊢
              obtain ⟨rfl, h2⟩ := h
              subst h2
              rcases r0 with _ | ⟨rc, rr⟩
              · simp [SafeRest] at hs
              · have happ := takeDigits_append_cons r rr t ds0 rc ht
                rw [happ]
                exact ⟨rfl, rfl⟩
            · simp only [hd, if_false, Prod.mk.injEq] at h ⊢
              obtain ⟨rfl, rfl⟩ := h
              simp [List.cons_append]
        · simp only [if_neg hsg] at h ⊢
          by_cases hd : isDigitChar sgn
          · rcases ht : takeDigits rest2 with ⟨ds0, r0⟩
            simp only [hd, if_true, ht, Prod.mk.injEq] at h ⊢
            obtain ⟨rfl, h2⟩ := h
            subst h2
            rcases r0 with _ | ⟨rc, rr⟩
            · simp [SafeRest] at hs
            · have happ := takeDigits_append_cons rest2 rr t ds0 rc ht
              rw [happ]
              exact ⟨rfl, rfl⟩
          · simp only [hd, if_false, Prod.mk.injEq] at h ⊢
            obtain ⟨rfl, rfl⟩ := h
            simp [List.cons_append]
    · simp only [if_neg he, Prod.mk.injEq] at h ⊢
      obtain ⟨rfl, rfl⟩ := h
      simp [List.cons_append]

theorem parseNumBody_append (x lex y t : List Char)
    (h : parseNumBody x = some (lex, y)) (hs : SafeRest y) :
    parseNumBody (x ++ t) = some (lex, y ++ t) := by
  unfold parseNumBody at h ⊢
  rcases hip : parseIntPart x with _ | ⟨ip, s2⟩
  · rw [hip] at h
    exact Option.noConfusion h
  · rcases hfp : parseFracPart s2 with ⟨fp, s3⟩
    rcases hep : parseExpPart s3 with ⟨ep, s4⟩
    simp only [hip, hfp, hep] at h
    simp only [Option.some.injEq, Prod.mk.injEq] at h
    obtain ⟨rfl, rfl⟩ := h
    have hy : s4 ≠ [] := by
      intro hnil
      rw [hnil] at hs
      simp [SafeRest] at hs
    have hs3 : s3 ≠ [] := by
      intro hnil
      rw [hnil, show parseExpPart [] = ([], []) from rfl] at hep
      simp only [Prod.mk.injEq] at hep
      exact hy hep.2.symm
    have hs2 : s2 ≠ [] := by
      intro hnil
      rw [hnil, show parseFracPart [] = ([], []) from rfl] at hfp
      simp only [Prod.mk.injEq] at hfp
      exact hs3 hfp.2.symm
    have hsdot : s2 ≠ ['.'] := by
      intro hd
      rw [hd, show parseFracPart [Char.ofNat 46] = ([], [Char.ofNat 46]) from rfl] at hfp
      simp only [Prod.mk.injEq] at hfp
      rw [← hfp.2, show parseExpPart [Char.ofNat 46] = ([], [Char.ofNat 46]) from rfl]
        at hep
      simp only [Prod.mk.injEq] at hep
      rw [← hep.2] at hs
      simp [SafeRest, isNumCont] at hs
    rcases s2 with _ | ⟨c2, y2⟩
    · exact absurd rfl hs2
    · have hip2 := parseIntPart_append x ip c2 y2 t hip
      have hfp2 := parseFracPart_append (c2 :: y2) s3 fp t hfp hs3 hsdot
      rw [List.cons_append] at hfp2
      have hep2 := parseExpPart_append s3 s4 ep t hep hs
      simp only [hip2, List.cons_append, hfp2, hep2]

theorem parseNum_not_neg (c : Char) (r : List Char) (hc : ¬ c = '-') :
    parseNum (c :: r) = parseNumBody (c :: r) := by
  unfold parseNum
  split
  · next r' heq =>
    injection heq with h1 h2
    exact absurd h1 hc
  · rfl

theorem parseNum_append (x lex y t : List Char)
    (h : parseNum x = some (lex, y)) (hs : SafeRest y) :
    parseNum (x ++ t) = some (lex, y ++ t) := by
  rcases x with _ | ⟨c, r⟩
  · simp [parseNum, parseNumBody, parseIntPart] at h
  · rw [List.cons_append]
    by_cases hneg : c = '-'
    · subst hneg
      simp only [parseNum] at h ⊢
      rcases hb : parseNumBody r with _ | ⟨lex0, y0⟩
      · rw [hb] at h
        exact Option.noConfusion h
      · rw [hb] at h
        simp only [Option.some.injEq, Prod.mk.injEq] at h
        obtain ⟨rfl, rfl⟩ := h
        rw [parseNumBody_append r lex0 y0 t hb hs]
    · rw [parseNum_not_neg c _ hneg] at h ⊢
      rw [← List.cons_append]
      exact parseNumBody_append (c :: r) lex y t h hs

theorem parseNumBody_cons_none (c : Char) (r : List Char)
    (hz : ¬ c = '0') (hd : isDigitChar c = false) :
    parseNumBody (c :: r) = none := by
  unfold parseNumBody
  simp [parseIntPart, hz, hd]

theorem parseNum_cons_none (c : Char) (r : List Char)
    (hz : ¬ c = '0') (hd : isDigitChar c = false) (hneg : ¬ c = '-') :
    parseNum (c :: r) = none := by
  rw [parseNum_not_neg c r hneg]
  exact parseNumBody_cons_none c r hz hd

theorem parseNum_neg_cons_none (c : Char) (r : List Char)
    (hz : ¬ c = '0') (hd : isDigitChar c = false) :
    parseNum ('-' :: c :: r) = none := by
  simp only [parseNum]
  rw [parseNumBody_cons_none c r hz hd]

theorem expectLit_cons_head (l : Char) (ls s y : List Char)
    (h : expectLit (l :: ls) s = some y) : ∃ s2, s = l :: s2 := by
  rcases s with _ | ⟨c2, s2⟩
  · simp [expectLit] at h
  · unfold expectLit at h
    by_cases hc : c2 = l
    · exact ⟨s2, by rw [hc]⟩
    · simp [hc] at h

theorem parseStrAux_mono : ∀ (f f2 : Nat) (acc s : List Char)
    (x : List Char × List Char), f ≤ f2 →
    parseStrAux f acc s = some x → parseStrAux f2 acc s = some x
  | 0, f2, acc, s, x, hle, h => by simp [parseStrAux] at h
  | f + 1, f2, acc, [], x, hle, h => by simp [parseStrAux] at h
  | f + 1, 0, acc, c :: rest, x, hle, h => by omega
  | f + 1, f2 + 1, acc, c :: rest, x, hle, h => by
    have hle2 : f ≤ f2 := by omega
    simp only [parseStrAux] at h ⊢
    repeat' split at h
    all_goals try exact Option.noConfusion h
    all_goals try (rw [parseStrAux_nil] at h; exact Option.noConfusion h)
    all_goals try (have hIH := parseStrAux_mono f f2 _ _ _ hle2 h
                   simp_all +decide
                   done)
    all_goals simp_all +decide

set_option maxHeartbeats 4000000 in
mutual

theorem parseValue_mono : ∀ (f f2 : Nat) (s : List Char) (x : JVal × List Char),
    f ≤ f2 → parseValue f s = some x → parseValue f2 s = some x
  | 0, f2, s, x, hle, h => Option.noConfusion h
  | f + 1, f2, [], x, hle, h => Option.noConfusion h
  | f + 1, 0, c :: rr, x, hle, h => by omega
  | f + 1, f2 + 1, c :: rr, x, hle, h => by
    have hle2 : f ≤ f2 := by omega
    rw [parseValue] at h ⊢
    by_cases h1 : c = '"'
    · simp only [if_pos h1] at h ⊢
      split at h
      · next cs1 r1 heq =>
        simp only [parseStrAux_mono f f2 [] rr (cs1, r1) hle2 heq]
        exact h
      · exact Option.noConfusion h
    · by_cases h2 : c = '{'
      · simp only [if_neg h1, if_pos h2] at h ⊢
        split at h
        · exact h
        · next r1 hne =>
          split at h
          · next ms2 r2 heq2 =>
            simp only [parseMembers_mono f f2 (skipWs rr) (ms2, r2) hle2 heq2]
            exact h
          · exact Option.noConfusion h
      · by_cases h3 : c = '['
        · simp only [if_neg h1, if_neg h2, if_pos h3] at h ⊢
          split at h
          · exact h
          · next r1 hne =>
            split at h
            · next es2 r2 heq2 =>
              simp only [parseElems_mono f f2 (skipWs rr) (es2, r2) hle2 heq2]
              exact h
            · exact Option.noConfusion h
        · simp only [if_neg h1, if_neg h2, if_neg h3] at h ⊢
          exact h

theorem parseMembers_mono : ∀ (f f2 : Nat) (s : List Char)
    (x : List (List Char × JVal) × List Char),
    f ≤ f2 → parseMembers f s = some x → parseMembers f2 s = some x
  | 0, f2, s, x, hle, h => Option.noConfusion h
  | f + 1, f2, [], x, hle, h => Option.noConfusion h
  | f + 1, 0, c :: rr, x, hle, h => by omega
  | f + 1, f2 + 1, c :: rr, x, hle, h => by
    have hle2 : f ≤ f2 := by omega
    rw [parseMembers] at h ⊢
    by_cases hq : c = '"'
    · simp only [if_pos hq] at h ⊢
      split at h
      · exact Option.noConfusion h
      · next k r1 hkey =>
        simp only [parseStrAux_mono f f2 [] rr (k, r1) hle2 hkey]
        split at h
        · next r2 hcolon =>
          split at h
          · exact Option.noConfusion h
          · next v0 r3 hval =>
            simp only [parseValue_mono f f2 (skipWs r2) (v0, r3) hle2 hval]
            split at h
            · next r4 hcomma =>
              split at h
              · next ms0 r5 hrec =>
                simp only [parseMembers_mono f f2 (skipWs r4) (ms0, r5) hle2 hrec]
                exact h
              · exact Option.noConfusion h
            · next r4 hbrace =>
              exact h
            · exact Option.noConfusion h
        · exact Option.noConfusion h
    · simp only [if_neg hq] at h
      exact Option.noConfusion h

theorem parseElems_mono : ∀ (f f2 : Nat) (s : List Char)
    (x : List JVal × List Char),
    f ≤ f2 → parseElems f s = some x → parseElems f2 s = some x
  | 0, f2, s, x, hle, h => Option.noConfusion h
  | f + 1, 0, s, x, hle, h => by omega
  | f + 1, f2 + 1, s, x, hle, h => by
    have hle2 : f ≤ f2 := by omega
    rw [parseElems] at h ⊢
    split at h
    · exact Option.noConfusion h
    · next v0 r1 hval =>
      simp only [parseValue_mono f f2 s (v0, r1) hle2 hval]
      split at h
      · next r2 hcomma =>
        split at h
        · next es0 r3 hrec =>
          simp only [parseElems_mono f f2 (skipWs r2) (es0, r3) hle2 hrec]
          exact h
        · exact Option.noConfusion h
      · next r2 hbrack =>
        exact h
      · exact Option.noConfusion h
end

theorem parseValue_nil (f : Nat) : parseValue f [] = none := by
  cases f <;> rfl

theorem parseMembers_nil (f : Nat) : parseMembers f [] = none := by
  cases f <;> rfl

theorem parseElems_nil (f : Nat) : parseElems f [] = none := by
  cases f with
  | zero => rfl
  | succ f => simp [parseElems, parseValue_nil]

theorem isNumCont_of_ws (c : Char) (h : isWsChar c = true) : isNumCont c = false := by
  simp only [isWsChar, Bool.or_eq_true, decide_eq_true_eq] at h
  rcases h with ((rfl | rfl) | rfl) | rfl <;> decide

theorem SafeRest_of_skipWs (s : List Char) (c : Char) (y : List Char)
    (h : skipWs s = c :: y) (hc : isNumCont c = false) : SafeRest s := by
  rcases s with _ | ⟨c0, r0⟩
  · simp [skipWs] at h
  · show isNumCont c0 = false
    by_cases hw : isWsChar c0
    · exact isNumCont_of_ws c0 hw
    · unfold skipWs at h
      rw [if_neg (by simpa using hw)] at h
      injection h with h1 h2
      rw [h1]
      exact hc

theorem NumGuard_of_SafeRest (v : JVal) (r : List Char) (h : SafeRest r) :
    NumGuard v r := by
  cases v <;> first | exact h | trivial

set_option maxHeartbeats 4000000 in
mutual

theorem parseValue_append : ∀ (f : Nat) (s : List Char) (v : JVal) (r t : List Char),
    parseValue f s = some (v, r) → NumGuard v r →
    parseValue f (s ++ t) = some (v, r ++ t)
  | 0, s, v, r, t, h, hng => Option.noConfusion h
  | f + 1, [], v, r, t, h, hng => Option.noConfusion h
  | f + 1, c :: rr, v, r, t, h, hng => by
    rw [List.cons_append]
    rw [parseValue] at h ⊢
    by_cases h1 : c = '"'
    · simp only [if_pos h1] at h ⊢
      split at h
      · next cs1 r1 heq =>
        simp only [Option.some.injEq, Prod.mk.injEq] at h
        obtain ⟨rfl, rfl⟩ := h
        simp only [parseStrAux_append f [] rr cs1 r1 t heq]
      · exact Option.noConfusion h
    · by_cases h2 : c = '{'
      · simp only [if_neg h1, if_pos h2] at h ⊢
        split at h
        · next r2 hsk =>
          simp only [Option.some.injEq, Prod.mk.injEq] at h
          obtain ⟨rfl, rfl⟩ := h
          simp only [skipWs_append_cons rr r2 t _ hsk, List.cons_append]
        · next r1 hne =>
          split at h
          · next ms2 r2 heq2 =>
            simp only [Option.some.injEq, Prod.mk.injEq] at h
            obtain ⟨rfl, rfl⟩ := h
            rcases hsk : skipWs rr with _ | ⟨c1, y1⟩
            · rw [hsk, parseMembers_nil] at heq2
              exact Option.noConfusion heq2
            · have hc1 : ¬ c1 = '}' := by
                intro hh
                exact hne y1 (by rw [hsk, hh])
              rw [hsk] at heq2
              have hrec := parseMembers_append f (c1 :: y1) (ms2, r2) t heq2
              simp only [skipWs_append_cons rr y1 t c1 hsk, List.cons_append]
              split
              · next r3 heq3 =>
                injection heq3 with hh1 hh2
                exact absurd hh1 hc1
              · simp only [List.cons_append] at hrec
                simp only [hrec]
          · exact Option.noConfusion h
      · by_cases h3 : c = '['
        · simp only [if_neg h1, if_neg h2, if_pos h3] at h ⊢
          split at h
          · next r2 hsk =>
            simp only [Option.some.injEq, Prod.mk.injEq] at h
            obtain ⟨rfl, rfl⟩ := h
            simp only [skipWs_append_cons rr r2 t _ hsk, List.cons_append]
          · next r1 hne =>
            split at h
            · next es2 r2 heq2 =>
              simp only [Option.some.injEq, Prod.mk.injEq] at h
              obtain ⟨rfl, rfl⟩ := h
              rcases hsk : skipWs rr with _ | ⟨c1, y1⟩
              · rw [hsk, parseElems_nil] at heq2
                exact Option.noConfusion heq2
              · have hc1 : ¬ c1 = ']' := by
                  intro hh
                  exact hne y1 (by rw [hsk, hh])
                rw [hsk] at heq2
                have hrec := parseElems_append f (c1 :: y1) (es2, r2) t heq2
                simp only [skipWs_append_cons rr y1 t c1 hsk, List.cons_append]
                split
                · next r3 heq3 =>
                  injection heq3 with hh1 hh2
                  exact absurd hh1 hc1
                · simp only [List.cons_append] at hrec
                  simp only [hrec]
            · exact Option.noConfusion h
        · by_cases h4 : c = 'n'
          · simp only [if_neg h1, if_neg h2, if_neg h3, if_pos h4] at h ⊢
            cases hexp : expectLit "ull".toList rr with
            | none => rw [hexp] at h; exact Option.noConfusion h
            | some r2 =>
              rw [hexp] at h
              simp only [Option.map_some', Option.some.injEq, Prod.mk.injEq] at h
              obtain ⟨rfl, rfl⟩ := h
              simp only [expectLit_append _ rr r2 t hexp, Option.map_some']
          · by_cases h5 : c = 't'
            · simp only [if_neg h1, if_neg h2, if_neg h3, if_neg h4, if_pos h5] at h ⊢
              cases hexp : expectLit "rue".toList rr with
              | none => rw [hexp] at h; exact Option.noConfusion h
              | some r2 =>
                rw [hexp] at h
                simp only [Option.map_some', Option.some.injEq, Prod.mk.injEq] at h
                obtain ⟨rfl, rfl⟩ := h
                simp only [expectLit_append _ rr r2 t hexp, Option.map_some']
            · by_cases h6 : c = 'f'
              · simp only [if_neg h1, if_neg h2, if_neg h3, if_neg h4, if_neg h5,
                  if_pos h6] at h ⊢
                cases hexp : expectLit "alse".toList rr with
                | none => rw [hexp] at h; exact Option.noConfusion h
                | some r2 =>
                  rw [hexp] at h
                  simp only [Option.map_some', Option.some.injEq, Prod.mk.injEq] at h
                  obtain ⟨rfl, rfl⟩ := h
                  simp only [expectLit_append _ rr r2 t hexp, Option.map_some']
              · simp only [if_neg h1, if_neg h2, if_neg h3, if_neg h4, if_neg h5,
                  if_neg h6] at h ⊢
                split at h
                · next lex r1 heqn =>
                  simp only [Option.some.injEq, Prod.mk.injEq] at h
                  obtain ⟨rfl, rfl⟩ := h
                  have hs : SafeRest r1 := hng
                  have hnum := parseNum_append (c :: rr) lex r1 t heqn hs
                  rw [List.cons_append] at hnum
                  simp only [hnum]
                · next hnone =>
                  by_cases h7 : c = 'N'
                  · subst h7
                    simp only [if_pos rfl] at h ⊢
                    cases hexp : expectLit "aN".toList rr with
                    | none => rw [hexp] at h; exact Option.noConfusion h
                    | some r2 =>
                      rw [hexp] at h
                      simp only [Option.map_some', Option.some.injEq, Prod.mk.injEq] at h
                      obtain ⟨rfl, rfl⟩ := h
                      have hnn := parseNum_cons_none 'N' (rr ++ t)
                        (by decide) (by decide) (by decide)
                      simp only [hnn, expectLit_append _ _ _ t hexp, Option.map_some']
                      simp
                  · by_cases h8 : c = 'I'
                    · subst h8
                      simp only [if_neg h7, if_pos rfl] at h ⊢
                      cases hexp : expectLit "nfinity".toList rr with
                      | none => rw [hexp] at h; exact Option.noConfusion h
                      | some r2 =>
                        rw [hexp] at h
                        simp only [Option.map_some', Option.some.injEq,
                          Prod.mk.injEq] at h
                        obtain ⟨rfl, rfl⟩ := h
                        have hnn := parseNum_cons_none 'I' (rr ++ t)
                          (by decide) (by decide) (by decide)
                        simp only [hnn, expectLit_append _ _ _ t hexp,
                          Option.map_some']
                        simp
                    · by_cases h9 : c = '-'
                      · subst h9
                        simp only [if_neg h7, if_neg h8, if_pos rfl] at h ⊢
                        cases hexp : expectLit "Infinity".toList rr with
                        | none => rw [hexp] at h; exact Option.noConfusion h
                        | some r2 =>
                          rw [hexp] at h
                          simp only [Option.map_some', Option.some.injEq,
                            Prod.mk.injEq] at h
                          obtain ⟨rfl, rfl⟩ := h
                          obtain ⟨rr2, rfl⟩ :=
                            expectLit_cons_head _ _ _ _ hexp
                          have hnn := parseNum_neg_cons_none 'I' (rr2 ++ t)
                            (by decide) (by decide)
                          rw [List.cons_append]
                          simp only [hnn]
                          have hee := expectLit_append _ _ _ t hexp
                          rw [List.cons_append] at hee
                          simp only [hee, Option.map_some']
                          simp
                      · simp only [if_neg h7, if_neg h8, if_neg h9] at h
                        exact Option.noConfusion h

theorem parseMembers_append : ∀ (f : Nat) (s : List Char)
    (x : List (List Char × JVal) × List Char) (t : List Char),
    parseMembers f s = some x → parseMembers f (s ++ t) = some (x.1, x.2 ++ t)
  | 0, s, x, t, h => Option.noConfusion h
  | f + 1, [], x, t, h => Option.noConfusion h
  | f + 1, c :: rr, x, t, h => by
    rw [List.cons_append]
    rw [parseMembers] at h ⊢
    by_cases hq : c = '"'
    · simp only [if_pos hq] at h ⊢
      split at h
      · exact Option.noConfusion h
      · next k r1 hkey =>
        simp only [parseStrAux_append f [] rr k r1 t hkey]
        split at h
        · next r2 hcolon =>
          simp only [skipWs_append_cons r1 r2 t _ hcolon, List.cons_append]
          split at h
          · exact Option.noConfusion h
          · next v0 r3 hval =>
            rcases hsk2 : skipWs r2 with _ | ⟨c2, y2⟩
            · rw [hsk2, parseValue_nil] at hval
              exact Option.noConfusion hval
            · rw [hsk2] at hval
              split at h
              · next r4 hcomma =>
                have hng : NumGuard v0 r3 :=
                  NumGuard_of_SafeRest v0 r3
                    (SafeRest_of_skipWs r3 ',' r4 hcomma (by decide))
                have hv2 := parseValue_append f (c2 :: y2) v0 r3 t hval hng
                simp only [skipWs_append_cons r2 y2 t c2 hsk2, List.cons_append]
                simp only [List.cons_append] at hv2
                simp only [hv2]
                simp only [skipWs_append_cons r3 r4 t _ hcomma, List.cons_append]
                split at h
                · next ms0 r5 hrec =>
                  simp only [Option.some.injEq] at h
                  obtain rfl := h.symm
                  rcases hsk4 : skipWs r4 with _ | ⟨c4, y4⟩
                  · rw [hsk4, parseMembers_nil] at hrec
                    exact Option.noConfusion hrec
                  · rw [hsk4] at hrec
                    have hm2 := parseMembers_append f (c4 :: y4) (ms0, r5) t hrec
                    simp only [skipWs_append_cons r4 y4 t c4 hsk4, List.cons_append]
                    simp only [List.cons_append] at hm2
                    simp only [hm2]
                · exact Option.noConfusion h
              · next r4 hbrace =>
                have hng : NumGuard v0 r3 :=
                  NumGuard_of_SafeRest v0 r3
                    (SafeRest_of_skipWs r3 '}' r4 hbrace (by decide))
                have hv2 := parseValue_append f (c2 :: y2) v0 r3 t hval hng
                simp only [skipWs_append_cons r2 y2 t c2 hsk2, List.cons_append]
                simp only [List.cons_append] at hv2
                simp only [hv2]
                simp only [skipWs_append_cons r3 r4 t _ hbrace, List.cons_append]
                simp only [Option.some.injEq] at h
                obtain rfl := h.symm
                rfl
              · exact Option.noConfusion h
        · exact Option.noConfusion h
    · simp only [if_neg hq] at h
      exact Option.noConfusion h

theorem parseElems_append : ∀ (f : Nat) (s : List Char)
    (x : List JVal × List Char) (t : List Char),
    parseElems f s = some x → parseElems f (s ++ t) = some (x.1, x.2 ++ t)
  | 0, s, x, t, h => Option.noConfusion h
  | f + 1, s, x, t, h => by
    rw [parseElems] at h ⊢
    split at h
    · exact Option.noConfusion h
    · next v0 r1 hval =>
      split at h
      · next r2 hcomma =>
        have hng : NumGuard v0 r1 :=
          NumGuard_of_SafeRest v0 r1
            (SafeRest_of_skipWs r1 ',' r2 hcomma (by decide))
        have hv2 := parseValue_append f s v0 r1 t hval hng
        simp only [hv2]
        simp only [skipWs_append_cons r1 r2 t _ hcomma, List.cons_append]
        split at h
        · next es0 r3 hrec =>
          simp only [Option.some.injEq] at h
          obtain rfl := h.symm
          rcases hsk2 : skipWs r2 with _ | ⟨c2, y2⟩
          · rw [hsk2, parseElems_nil] at hrec
            exact Option.noConfusion hrec
          · rw [hsk2] at hrec
            have he2 := parseElems_append f (c2 :: y2) (es0, r3) t hrec
            simp only [skipWs_append_cons r2 y2 t c2 hsk2, List.cons_append]
            simp only [List.cons_append] at he2
            simp only [he2]
        · exact Option.noConfusion h
      · next r2 hbrack =>
        have hng : NumGuard v0 r1 :=
          NumGuard_of_SafeRest v0 r1
            (SafeRest_of_skipWs r1 ']' r2 hbrack (by decide))
        have hv2 := parseValue_append f s v0 r1 t hval hng
        simp only [hv2]
        simp only [skipWs_append_cons r1 r2 t _ hbrack, List.cons_append]
        simp only [Option.some.injEq] at h
        obtain rfl := h.symm
        rfl
      · exact Option.noConfusion h
end

theorem rawDecode_append (s : List Char) (v : JVal) (r t : List Char)
    (h : rawDecode s = some (v, r)) (hng : NumGuard v r) :
    rawDecode (s ++ t) = some (v, r ++ t) := by
  unfold rawDecode at h ⊢
  have h1 := parseValue_append (s.length + 1) s v r t h hng
  exact parseValue_mono (s.length + 1) ((s ++ t).length + 1) (s ++ t) (v, r ++ t)
    (by simp) h1

theorem parseValue_obj_head (f : Nat) (xs : List Char) (v : JVal) (r : List Char)
    (h : parseValue f ('{' :: xs) = some (v, r)) : ∃ ms, v = JVal.obj ms := by
  cases f with
  | zero => exact Option.noConfusion h
  | succ f =>
    rw [parseValue] at h
    rw [if_neg (by decide), if_pos rfl] at h
    split at h
    · next r2 hsk =>
      simp only [Option.some.injEq, Prod.mk.injEq] at h
      exact ⟨[], h.1.symm⟩
    · next r1 hne =>
      split at h
      · next ms2 r2 heq2 =>
        simp only [Option.some.injEq, Prod.mk.injEq] at h
        exact ⟨ms2, h.1.symm⟩
      · exact Option.noConfusion h

theorem drain_snd_quiescent_aux : ∀ (n : Nat) (buf : List Char), buf.length ≤ n →
    drain (drain buf).2 = ([], (drain buf).2) := by
  intro n
  induction n with
  | zero =>
    intro buf hbuf
    have hb : buf = [] := List.length_eq_zero.mp (by omega)
    subst hb
    rfl
  | succ n ih =>
    intro buf hbuf
    show drain (drainAux (buf.length + 1) buf).2 = ([], (drainAux (buf.length + 1) buf).2)
    rw [drainAux]
    cases hf : findBrace buf with
    | none =>
      show drain buf = ([], buf)
      unfold drain
      rw [drainAux, hf]
    | some i =>
      simp only
      cases hd : rawDecode (buf.drop i) with
      | none =>
        show drain buf = ([], buf)
        unfold drain
        rw [drainAux, hf]
        simp only [hd]
      | some pr =>
        obtain ⟨v, rest⟩ := pr
        simp only
        cases hv : AgentState.model_validate v with
        | some st =>
          have hrest : rest.length < (buf.drop i).length :=
            parseValue_length _ _ _ _ hd
          have hdl : (buf.drop i).length ≤ buf.length := by
            simp [List.length_drop]
          rw [drainAux_eq_drain buf.length rest (by omega)]
          exact ih rest (by omega)
        | none =>
          have hi := findBrace_lt_length buf i hf
          have hdl : (buf.drop (i + 1)).length = buf.length - (i + 1) := by
            simp [List.length_drop]
          rw [drainAux_eq_drain buf.length (buf.drop (i + 1)) (by omega)]
          exact ih (buf.drop (i + 1)) (by omega)

theorem drain_snd_quiescent (buf : List Char) :
    drain (drain buf).2 = ([], (drain buf).2) :=
  drain_snd_quiescent_aux buf.length buf (le_refl _)

theorem drain_append_aux : ∀ (n : Nat) (x : List Char), x.length ≤ n → ∀ t,
    drain (x ++ t) = ((drain x).1 ++ (drain ((drain x).2 ++ t)).1,
                      (drain ((drain x).2 ++ t)).2) := by
  intro n
  induction n with
  | zero =>
    intro x hx t
    have hb : x = [] := List.length_eq_zero.mp (by omega)
    subst hb
    simp [show drain ([] : List Char) = ([], []) from rfl]
  | succ n ih =>
    intro x hx t
    cases hf : findBrace x with
    | none =>
      have hdx : drain x = ([], x) := by
        unfold drain
        rw [drainAux]
        simp only [hf]
      rw [hdx]
      simp
    | some i =>
      cases hd : rawDecode (x.drop i) with
      | none =>
        have hdx : drain x = ([], x) := by
          unfold drain
          rw [drainAux]
          simp only [hf, hd]
        rw [hdx]
        simp
      | some pr =>
        obtain ⟨v, rest⟩ := pr
        have hi := findBrace_lt_length x i hf
        obtain ⟨xs, hdrop⟩ := findBrace_drop x i hf
        have hd2 := hd
        unfold rawDecode at hd2
        rw [hdrop] at hd2
        obtain ⟨ms, rfl⟩ := parseValue_obj_head _ xs v rest hd2
        have hng : NumGuard (JVal.obj ms) rest := trivial
        have hdapp : rawDecode ((x.drop i) ++ t) = some (JVal.obj ms, rest ++ t) :=
          rawDecode_append _ _ _ t hd hng
        have hdropapp : (x ++ t).drop i = x.drop i ++ t :=
          List.drop_append_of_le_length (by omega)
        have hfapp : findBrace (x ++ t) = some i := findBrace_append_some x t i hf
        have hrest : rest.length < (x.drop i).length := parseValue_length _ _ _ _ hd
        have hdl : (x.drop i).length ≤ x.length := by simp
        cases hv : AgentState.model_validate (JVal.obj ms) with
        | some st =>
          have hdx : drain x = (st :: (drain rest).1, (drain rest).2) := by
            show drainAux (x.length + 1) x = _
            rw [drainAux]
            simp only [hf, hd, hv]
            rw [drainAux_eq_drain x.length rest (by omega)]
          have hdxt : drain (x ++ t) =
              (st :: (drain (rest ++ t)).1, (drain (rest ++ t)).2) := by
            show drainAux ((x ++ t).length + 1) (x ++ t) = _
            rw [drainAux]
            simp only [hfapp, hdropapp, hdapp, hv]
            rw [drainAux_eq_drain (x ++ t).length (rest ++ t)
              (by simp only [List.length_append]; omega)]
          have hih := ih rest (by omega) t
          rw [hdxt, hdx, hih]
          simp
        | none =>
          have hdx : drain x = drain (x.drop (i + 1)) := by
            show drainAux (x.length + 1) x = _
            rw [drainAux]
            simp only [hf, hd, hv]
            exact drainAux_eq_drain x.length (x.drop (i + 1))
              (by simp only [List.length_drop]; omega)
          have hdxt : drain (x ++ t) = drain ((x.drop (i + 1)) ++ t) := by
            show drainAux ((x ++ t).length + 1) (x ++ t) = _
            rw [drainAux]
            simp only [hfapp, hdropapp, hdapp, hv]
            rw [show (x ++ t).drop (i + 1) = x.drop (i + 1) ++ t from
                List.drop_append_of_le_length (by omega)]
            exact drainAux_eq_drain (x ++ t).length _
              (by simp only [List.length_append, List.length_drop]; omega)
          rw [hdxt, hdx]
          exact ih (x.drop (i + 1)) (by simp only [List.length_drop]; omega) t

theorem drain_append (x t : List Char) :
    drain (x ++ t) = ((drain x).1 ++ (drain ((drain x).2 ++ t)).1,
                      (drain ((drain x).2 ++ t)).2) :=
  drain_append_aux x.length x (le_refl _) t

theorem feedChunks_flatten : ∀ (cs : List (List Char)) (buf : List Char),
    drain buf = ([], buf) → feedChunks buf cs = drain (buf ++ cs.flatten)
  | [], buf, hq => by
    simp [feedChunks, hq]
  | c :: cs, buf, hq => by
    rw [show (c :: cs).flatten = c ++ cs.flatten from rfl, ← List.append_assoc]
    rw [drain_append (buf ++ c) cs.flatten]
    have hq1 := drain_snd_quiescent (buf ++ c)
    have hIH := feedChunks_flatten cs (drain (buf ++ c)).2 hq1
    rw [feedChunks]
    rcases hd1 : drain (buf ++ c) with ⟨e1, b1⟩
    rw [hd1] at hIH
    simp only [hd1]
    rw [hIH]

theorem drain_single_object (front s2 back : List Char) (v : JVal) (st : AgentState)
    (hfront : ∀ c ∈ front, ¬(c = '{')) (hback : ∀ c ∈ back, ¬(c = '{'))
    (hdec : rawDecode ('{' :: s2) = some (v, []))
    (hval : AgentState.model_validate v = some st) :
    drain (front ++ ('{' :: s2) ++ back) = ([st], back) := by
  have hd2 := hdec
  unfold rawDecode at hd2
  obtain ⟨ms, rfl⟩ := parseValue_obj_head _ s2 v [] hd2
  have hdb : rawDecode (('{' :: s2) ++ back) = some (JVal.obj ms, [] ++ back) :=
    rawDecode_append _ _ _ back hdec trivial
  rw [List.nil_append] at hdb
  have hassoc : front ++ ('{' :: s2) ++ back = front ++ '{' :: (s2 ++ back) := by
    simp
  rw [hassoc]
  have hfb := findBrace_front front (s2 ++ back) hfront
  have hdrop : (front ++ '{' :: (s2 ++ back)).drop front.length = '{' :: (s2 ++ back) :=
    List.drop_left front _
  show drainAux ((front ++ '{' :: (s2 ++ back)).length + 1) _ = _
  rw [drainAux]
  simp only [hfb, hdrop]
  rw [show ('{' : Char) :: (s2 ++ back) = ('{' :: s2) ++ back from rfl]
  simp only [hdb, hval]
  rw [drainAux_eq_drain ((front ++ (('{' :: s2) ++ back)).length) back
    (by simp only [List.length_append, List.length_cons]; omega)]
  rw [show drain back = ([], back) from (by
    show drainAux _ _ = _
    rw [drainAux]
    simp only [findBrace_eq_none back hback])]

theorem processStream_flatten (chunks : List (List Char)) :
    processStream chunks = drain chunks.flatten := by
  unfold processStream
  rw [feedChunks_flatten chunks [] rfl]
  rw [List.nil_append]

/-- C2: chunk-split invariance of the streaming assembler. (1) For every
fragmentation, feeding the chunks in order produces exactly the same events
and final buffer as feeding the concatenated stream as one fragment.
(2) When the stream consists of one complete, schema-valid Decision object
surrounded by brace-free text, exactly one event is emitted, regardless of
the split points. -/
theorem chunk_split_invariant :
    (∀ chunks : List (List Char),
        processStream chunks = processStream [chunks.flatten]) ∧
    (∀ (chunks : List (List Char)) (front s2 back : List Char) (v : JVal)
        (st : AgentState),
        chunks.flatten = front ++ ('{' :: s2) ++ back →
        (∀ c ∈ front, ¬(c = '{')) → (∀ c ∈ back, ¬(c = '{')) →
        rawDecode ('{' :: s2) = some (v, []) →
        AgentState.model_validate v = some st →
        processStream chunks = ([st], back)) := by
  constructor
  · intro chunks
    rw [processStream_flatten, processStream_flatten]
    simp
  · intro chunks front s2 back v st hflat hfront hback hdec hval
    rw [processStream_flatten, hflat]
    exact drain_single_object front s2 back v st hfront hback hdec hval

set_option maxRecDepth 8000 in
/-- Witness for C2: the decision split across two fragments with leading and
trailing chatter emits exactly `decisionState` once. -/
theorem chunk_split_invariant_witness :
    processStream
        ["xyz\x7b\"thought\": \"t\", \"next_".toList,
         "action\": \"continue\"\x7d ok".toList] =
      ([decisionState], " ok".toList) :=
  chunk_split_invariant.2
    ["xyz\x7b\"thought\": \"t\", \"next_".toList,
     "action\": \"continue\"\x7d ok".toList]
    "xyz".toList
    "\"thought\": \"t\", \"next_action\": \"continue\"\x7d".toList
    " ok".toList
    decisionJVal decisionState
    (by decide) (by decide) (by decide) (by rfl) (by rfl)

end SreAgent
